import Mathlib

/-!
Verification development for the streaming tool-call rewriter of the
Kimi-K2.5 proxy (package `downstream`, file containing `ToolCallTransformer`).

The rewriter consumes decoded upstream SSE chunks and re-emits downstream
chunks, translating the delimiter-token sub-language embedded in the
`reasoning` field into OpenAI-style tool-call deltas.  We embed the decoded
path of `processEvent` / `processReasoning` and the chunk builders
(`makeContentChunk`, `makeToolCallHeader`, `makeArgsDelta`, `shallowCopy`)
as executable Lean functions over `List Char` strings.  JSON (de)serialization
and the SSE framing of `Transform` are outside the embedded boundary: claims
are about the fields of the emitted chunks, which are preserved verbatim by
`json.Marshal`.  The wall-clock value `time.Now().UnixMilli()` used by
`parseToolCallID` is abstracted as an explicit `millis : Nat` parameter.
-/

set_option maxRecDepth 400000

/-- Strings are modelled as lists of characters (Go byte strings; all
delimiter tokens are ASCII). -/
abbrev Str := List Char

/-- Embedding of Go `strings.Index s pat`: the index of the first occurrence
of `pat` in `s`, or `none` where Go returns `-1`. -/
def strIndex : Str → Str → Option Nat
  | [], pat => if pat = [] then some 0 else none
  | c :: t, pat =>
      if pat.isPrefixOf (c :: t) then some 0 else (strIndex t pat).map (· + 1)

/-- Embedding of Go `strings.LastIndex s pat`: the index of the last
occurrence of `pat` in `s`, or `none` where Go returns `-1`. -/
def strLastIndex : Str → Str → Option Nat
  | [], pat => if pat = [] then some 0 else none
  | c :: t, pat =>
      match strLastIndex t pat with
      | some i => some (i + 1)
      | none => if pat.isPrefixOf (c :: t) then some 0 else none

/-- ASCII whitespace recognized by the embedding of `strings.TrimSpace`
(the Go function trims Unicode white space; the identifiers the rewriter
trims are ASCII). -/
def isSpaceChar (c : Char) : Bool :=
  c = ' ' || c = '\t' || c = '\n' || c = '\r' || c = '\x0b' || c = '\x0c'

/-- Embedding of Go `strings.TrimSpace`. -/
def trimSpace (s : Str) : Str :=
  ((s.dropWhile isSpaceChar).reverse.dropWhile isSpaceChar).reverse

/-- Delimiter token `<|tool_calls_section_begin|>` (S_BEG). -/
def tokSectionBegin : Str := "<|tool_calls_section_begin|>".data

/-- Delimiter token `<|tool_call_begin|>` (C_BEG). -/
def tokCallBegin : Str := "<|tool_call_begin|>".data

/-- Delimiter token `<|tool_call_argument_begin|>` (A_BEG). -/
def tokArgBegin : Str := "<|tool_call_argument_begin|>".data

/-- Delimiter token `<|tool_call_end|>` (C_END). -/
def tokCallEnd : Str := "<|tool_call_end|>".data

/-- Delimiter token `<|tool_calls_section_end|>` (S_END). -/
def tokSectionEnd : Str := "<|tool_calls_section_end|>".data

/-- The substring tested by `containsAnyToken` in the source. -/
def tokCallStem : Str := "<|tool_call".data

/-- Embedding of `containsAnyToken`: `strings.Contains(s, "<|tool_call")`. -/
def containsAnyToken (s : Str) : Bool := (strIndex s tokCallStem).isSome

/-- The `Function` JSON object of a tool call. -/
structure ToolFunction where
  name : Str
  arguments : Str
deriving DecidableEq

/-- The `ToolCall` JSON object of a delta. -/
structure ToolCall where
  id : Str
  type : Str
  index : Nat
  function : ToolFunction
deriving DecidableEq

/-- The `Delta` JSON object of a choice. -/
structure Delta where
  content : Str := []
  reasoning : Str := []
  reasoningContent : Str := []
  toolCalls : List ToolCall := []
  finishReason : Option Str := none
deriving DecidableEq

/-- One element of the `choices` array. -/
structure Choice where
  index : Nat
  delta : Delta
  finishReason : Option Str := none
deriving DecidableEq

/-- The optional `usage` object. -/
structure Usage where
  promptTokens : Nat
  completionTokens : Nat
deriving DecidableEq

/-- One decoded SSE chunk. -/
structure Chunk where
  id : Str := []
  object : Str := []
  model : Str := []
  created : Nat := 0
  choices : List Choice := []
  usage : Option Usage := none
deriving DecidableEq

/-- The parser states of the rewriter. -/
inductive ParserState where
  | idle
  | inSection
  | readingID
  | readingArgs
  | trailing
deriving DecidableEq

/-- The mutable fields of `ToolCallTransformer` (its `output` writer is
outside the embedded boundary). -/
structure TState where
  state : ParserState
  buf : Str
  toolIndex : Nat
  currentID : Str
deriving DecidableEq

/-- State of a freshly constructed transformer (`NewToolCallTransformer`). -/
def initTState : TState := ⟨ParserState.idle, [], 0, []⟩

/-- Zero value of `Choice` used to totalize head projections; the Go code
only reaches the corresponding index when `choices` is non-empty. -/
def defaultChoice : Choice := { index := 0, delta := {} }

/-- Embedding of `shallowCopy`: keep identification fields, reduce the
choices to a single choice carrying the original index and finish reason,
with an empty delta. -/
def shallowCopy (c : Chunk) : Chunk :=
  let c0 := c.choices.headD defaultChoice
  { c with choices := [{ index := c0.index, delta := {}, finishReason := c0.finishReason }] }

/-- Embedding of `ToolCallTransformer.makeContentChunk`. -/
def makeContentChunk (base : Chunk) (content : Str) : Chunk :=
  let c := shallowCopy base
  { c with choices := c.choices.map (fun ch => { ch with delta := { content := content } }) }

/-- Embedding of `ToolCallTransformer.makeToolCallHeader`; the source reads
`t.currentID` and `t.toolIndex`, which are passed here explicitly. -/
def makeToolCallHeader (base : Chunk) (cid : Str) (toolIndex : Nat) (name : Str) : Chunk :=
  let c := shallowCopy base
  { c with choices := c.choices.map (fun ch => { ch with delta :=
      { toolCalls := [{ id := cid, type := "function".data, index := toolIndex,
                        function := { name := name, arguments := [] } }] } }) }

/-- Embedding of `ToolCallTransformer.makeArgsDelta`; the source reads
`t.toolIndex`, passed here explicitly. -/
def makeArgsDelta (base : Chunk) (toolIndex : Nat) (args : Str) : Chunk :=
  let c := shallowCopy base
  { c with choices := c.choices.map (fun ch => { ch with delta :=
      { toolCalls := [{ id := [], type := [], index := toolIndex,
                        function := { name := [], arguments := args } }] } }) }

/-- Embedding of `parseToolCallID`; `millis` abstracts
`time.Now().UnixMilli()`. -/
def parseToolCallID (raw : Str) (index : Nat) (millis : Nat) : Str × Str :=
  let raw := trimSpace raw
  if ("call_".data).isPrefixOf raw then (raw, [])
  else ("call_".data ++ (Nat.repr index).data ++ "_".data ++ (Nat.repr millis).data, raw)

/-- Embedding of `parseFunctionName`: trim, take the substring after the
first `.` (if any), then the substring before the last `:` (if any). -/
def parseFunctionName (raw : Str) : Str :=
  let raw := trimSpace raw
  let raw := match strIndex raw ".".data with
    | some i => raw.drop (i + 1)
    | none => raw
  match strLastIndex raw ":".data with
  | some i => raw.take i
  | none => raw

/-- The state loop of `processReasoning`, with the accumulator `out` of the
chunks emitted so far during one feed.  Each recursive call consumes at
least one delimiter token from `buf`, so the loop terminates. -/
def loop (millis : Nat) (base : Chunk) (t : TState) (out : List Chunk) :
    TState × List Chunk :=
  match hs : t.state with
  | ParserState.idle =>
    match h : strIndex t.buf tokSectionBegin with
    | none => (t, out)
    | some idx =>
      let out := if 0 < idx then out ++ [makeContentChunk base (t.buf.take idx)] else out
      loop millis base
        { t with buf := t.buf.drop (idx + tokSectionBegin.length),
                 state := ParserState.inSection } out
  | ParserState.inSection =>
    match hE : strIndex t.buf tokSectionEnd, hI : strIndex t.buf tokCallBegin with
    | some endIdx, none =>
      let trailing := t.buf.drop (endIdx + tokSectionEnd.length)
      if trailing ≠ [] then
        ({ t with buf := [], state := ParserState.trailing },
         out ++ [makeContentChunk base trailing])
      else
        ({ t with buf := [], state := ParserState.trailing }, out)
    | some endIdx, some idx =>
      if endIdx < idx then
        let trailing := t.buf.drop (endIdx + tokSectionEnd.length)
        if trailing ≠ [] then
          ({ t with buf := [], state := ParserState.trailing },
           out ++ [makeContentChunk base trailing])
        else
          ({ t with buf := [], state := ParserState.trailing }, out)
      else
        loop millis base
          { t with buf := t.buf.drop (idx + tokCallBegin.length),
                   state := ParserState.readingID } out
    | none, none => (t, out)
    | none, some idx =>
      loop millis base
        { t with buf := t.buf.drop (idx + tokCallBegin.length),
                 state := ParserState.readingID } out
  | ParserState.readingID =>
    match h : strIndex t.buf tokArgBegin with
    | none => (t, out)
    | some argIdx =>
      let rawID := trimSpace (t.buf.take argIdx)
      let cid := (parseToolCallID rawID t.toolIndex millis).1
      let name := parseFunctionName rawID
      loop millis base
        { t with currentID := cid,
                 buf := t.buf.drop (argIdx + tokArgBegin.length),
                 state := ParserState.readingArgs }
        (out ++ [makeToolCallHeader base cid t.toolIndex name])
  | ParserState.readingArgs =>
    match h : strIndex t.buf tokCallEnd with
    | none =>
      if t.buf ≠ [] then
        ({ t with buf := [] }, out ++ [makeArgsDelta base t.toolIndex t.buf])
      else (t, out)
    | some endIdx =>
      let args := t.buf.take endIdx
      let out := if args ≠ [] then out ++ [makeArgsDelta base t.toolIndex args] else out
      loop millis base
        { t with buf := t.buf.drop (endIdx + tokCallEnd.length),
                 toolIndex := t.toolIndex + 1,
                 state := ParserState.inSection } out
  | ParserState.trailing => (t, out)
termination_by t.buf.length
decreasing_by
  all_goals
    have key : ∀ (s pat : Str) (j : Nat), strIndex s pat = some j → j + pat.length ≤ s.length := by
      intro s pat
      induction s with
      | nil =>
        intro j hj
        unfold strIndex at hj
        by_cases hp : pat = ([] : Str)
        · simp [hp] at hj ⊢
          omega
        · simp [hp] at hj
      | cons c t ih =>
        intro j hj
        unfold strIndex at hj
        by_cases hp : pat.isPrefixOf (c :: t)
        · simp [hp] at hj
          subst hj
          have hpre : pat <+: (c :: t) := (List.isPrefixOf_iff_prefix).mp hp
          simpa using hpre.length_le
        · simp [hp] at hj
          obtain ⟨j2, hj2, rfl⟩ := hj
          have := ih j2 hj2
          simp [List.length_cons]
          omega
    simp only [List.length_drop]
    first
      | (have hb := key _ _ _ h; simp [tokSectionBegin] at hb ⊢; omega)
      | (have hb := key _ _ _ hI; simp [tokCallBegin] at hb ⊢; omega)
      | (have hb := key _ _ _ h; simp [tokArgBegin] at hb ⊢; omega)
      | (have hb := key _ _ _ h; simp [tokCallEnd] at hb ⊢; omega)

/-- Embedding of `ToolCallTransformer.processReasoning`: append the new text
to the buffer and run the state loop. -/
def processReasoning (t : TState) (millis : Nat) (base : Chunk) (text : Str) :
    TState × List Chunk :=
  loop millis base { t with buf := t.buf ++ text } []

/-- Promotion of a misplaced `delta.finish_reason` onto the choice,
performed by `processEvent` before any other decision. -/
def promoteFinish (c : Chunk) : Chunk :=
  match c.choices with
  | [] => c
  | ch :: rest =>
    match ch.delta.finishReason with
    | none => c
    | some fr =>
      { c with choices :=
          { ch with finishReason := some fr,
                    delta := { ch.delta with finishReason := none } } :: rest }

/-- Reasoning-text extraction of `processEvent`: `delta.reasoning`, or
`delta.reasoning_content` when the former is empty. -/
def extractReasoning (c : Chunk) : Str :=
  match c.choices with
  | [] => []
  | ch :: _ => if ch.delta.reasoning = [] then ch.delta.reasoningContent else ch.delta.reasoning

/-- Embedding of `ToolCallTransformer.processEvent` on a decoded chunk
(the `[DONE]` literal and JSON parse failures are passed through by the
caller without touching the state, and are outside this embedding).
Returns the new transformer state and the chunks emitted, in order. -/
def processEvent (t : TState) (millis : Nat) (raw : Chunk) : TState × List Chunk :=
  let chunk := promoteFinish raw
  if chunk.choices = [] then (t, [chunk])
  else
    let reasoning := extractReasoning chunk
    if containsAnyToken reasoning = false ∧ t.state = ParserState.idle then (t, [chunk])
    else processReasoning t millis chunk reasoning

/-- Feeding a whole upstream sequence of decoded chunks through one
transformer; the result collects all emitted chunks in order. -/
def feedAll (t : TState) (millis : Nat) : List Chunk → TState × List Chunk
  | [] => (t, [])
  | c :: cs =>
    let r1 := processEvent t millis c
    let r2 := feedAll r1.1 millis cs
    (r2.1, r1.2 ++ r2.2)

/-- Tool-call list of an emitted chunk, read off its single choice (chunks
with zero or several choices carry no rewriter-built tool calls). -/
def chunkToolCalls (e : Chunk) : List ToolCall :=
  match e.choices with
  | [c] => c.delta.toolCalls
  | _ => []

/-- Classification key of a rewriter tool-call emission: `(index, 0)` for a
header chunk (its `type` is `"function"`), `(index, 1)` for an argument
delta (its `type` is empty), `none` for anything else. -/
def keyOf (e : Chunk) : Option (Nat × Nat) :=
  match chunkToolCalls e with
  | [tc] => some (tc.index, if tc.type = [] then 1 else 0)
  | _ => none

/-- Content text of an emitted chunk's first choice. -/
def contentOf (e : Chunk) : Str := (e.choices.headD defaultChoice).delta.content

/-- A content-carrying chunk: a single choice, no tool calls, non-empty
`content` field. -/
def isContentChunk (e : Chunk) : Prop :=
  keyOf e = none ∧ contentOf e ≠ []

/-- Argument bytes an emitted chunk contributes to the tool call of
index `i`. -/
def argsFor (i : Nat) (e : Chunk) : Str :=
  match chunkToolCalls e with
  | [tc] => if tc.index = i then tc.function.arguments else []
  | _ => []

/-- Concatenated argument bytes for tool call `i` over an emission list. -/
def argsConcat (i : Nat) (es : List Chunk) : Str := (es.map (argsFor i)).flatten

/-- Concatenated `content` fields over an emission list. -/
def contentConcat (es : List Chunk) : Str := (es.map contentOf).flatten

/-- Concatenated reasoning texts over a chunk list (reasoning extracted the
way `processEvent` extracts it). -/
def reasoningConcat (es : List Chunk) : Str := (es.map extractReasoning).flatten

/-- Canonical upstream chunk carrying a given reasoning fragment; used to
state stream-partition properties. -/
def mkRC (r : Str) : Chunk := { choices := [{ index := 0, delta := { reasoning := r } }] }

/-- Fuel-indexed evaluator for the state loop, structurally recursive so
that the kernel can evaluate concrete runs; `loopF_eq` shows it computes
`loop` whenever the fuel exceeds the buffer length. -/
def loopF (ms : Nat) (base : Chunk) : Nat → TState → List Chunk → TState × List Chunk
  | 0, t, out => (t, out)
  | fuel + 1, t, out =>
    match t.state with
    | ParserState.idle =>
      match strIndex t.buf tokSectionBegin with
      | none => (t, out)
      | some idx =>
        loopF ms base fuel
          { t with buf := t.buf.drop (idx + tokSectionBegin.length),
                   state := ParserState.inSection }
          (if 0 < idx then out ++ [makeContentChunk base (t.buf.take idx)] else out)
    | ParserState.inSection =>
      match strIndex t.buf tokSectionEnd, strIndex t.buf tokCallBegin with
      | some endIdx, none =>
        if t.buf.drop (endIdx + tokSectionEnd.length) = [] then
          ({ t with buf := [], state := ParserState.trailing }, out)
        else
          ({ t with buf := [], state := ParserState.trailing },
           out ++ [makeContentChunk base (t.buf.drop (endIdx + tokSectionEnd.length))])
      | some endIdx, some idx =>
        if endIdx < idx then
          if t.buf.drop (endIdx + tokSectionEnd.length) = [] then
            ({ t with buf := [], state := ParserState.trailing }, out)
          else
            ({ t with buf := [], state := ParserState.trailing },
             out ++ [makeContentChunk base (t.buf.drop (endIdx + tokSectionEnd.length))])
        else
          loopF ms base fuel
            { t with buf := t.buf.drop (idx + tokCallBegin.length),
                     state := ParserState.readingID } out
      | none, none => (t, out)
      | none, some idx =>
        loopF ms base fuel
          { t with buf := t.buf.drop (idx + tokCallBegin.length),
                   state := ParserState.readingID } out
    | ParserState.readingID =>
      match strIndex t.buf tokArgBegin with
      | none => (t, out)
      | some argIdx =>
        loopF ms base fuel
          { t with currentID := (parseToolCallID (trimSpace (t.buf.take argIdx)) t.toolIndex ms).1,
                   buf := t.buf.drop (argIdx + tokArgBegin.length),
                   state := ParserState.readingArgs }
          (out ++ [makeToolCallHeader base
            ((parseToolCallID (trimSpace (t.buf.take argIdx)) t.toolIndex ms).1)
            t.toolIndex
            (parseFunctionName (trimSpace (t.buf.take argIdx)))])
    | ParserState.readingArgs =>
      match strIndex t.buf tokCallEnd with
      | none =>
        if t.buf = [] then (t, out)
        else ({ t with buf := [] }, out ++ [makeArgsDelta base t.toolIndex t.buf])
      | some endIdx =>
        loopF ms base fuel
          { t with buf := t.buf.drop (endIdx + tokCallEnd.length),
                   toolIndex := t.toolIndex + 1,
                   state := ParserState.inSection }
          (if t.buf.take endIdx = [] then out
           else out ++ [makeArgsDelta base t.toolIndex (t.buf.take endIdx)])
    | ParserState.trailing => (t, out)

/-- Kernel-computable form of `processReasoning`. -/
def processReasoningF (t : TState) (ms : Nat) (base : Chunk) (text : Str) :
    TState × List Chunk :=
  loopF ms base ((t.buf ++ text).length + 1) { t with buf := t.buf ++ text } []

/-- Kernel-computable form of `processEvent`. -/
def processEventF (t : TState) (ms : Nat) (raw : Chunk) : TState × List Chunk :=
  let chunk := promoteFinish raw
  if chunk.choices = [] then (t, [chunk])
  else
    let reasoning := extractReasoning chunk
    if containsAnyToken reasoning = false ∧ t.state = ParserState.idle then (t, [chunk])
    else processReasoningF t ms chunk reasoning

/-- Kernel-computable form of `feedAll`. -/
def feedAllF (t : TState) (ms : Nat) : List Chunk → TState × List Chunk
  | [] => (t, [])
  | c :: cs =>
    let r1 := processEventF t ms c
    let r2 := feedAllF r1.1 ms cs
    (r2.1, r1.2 ++ r2.2)

/-- A content-after-tool-call pattern: some content chunk is preceded by a
tool-call emission (this is exactly the shape of section-trailing
content). -/
def Pattern (E : List Chunk) : Prop :=
  ∃ l₁ ct l₂, E = l₁ ++ ct :: l₂ ∧ isContentChunk ct ∧ ∃ x ∈ l₁, (keyOf x).isSome

/-- Every argument delta is preceded by a header of the same index. -/
def HeaderBeforeArgs (E : List Chunk) : Prop :=
  ∀ l₁ e l₂ i, E = l₁ ++ e :: l₂ → keyOf e = some (i, 1) →
    ∃ h ∈ l₁, keyOf h = some (i, 0)

/-- Tool-call emissions appear with nondecreasing indices. -/
def IdxMono (E : List Chunk) : Prop :=
  ∀ l₁ e l₂ e' i k i' k', E = l₁ ++ e :: l₂ → e' ∈ l₂ →
    keyOf e = some (i, k) → keyOf e' = some (i', k') → i ≤ i'

/-- After a section-trailing content chunk no tool-call emission occurs. -/
def NoCallAfterTrailing (E : List Chunk) : Prop :=
  ∀ l₁ ct l₂, E = l₁ ++ ct :: l₂ → isContentChunk ct →
    (∃ x ∈ l₁, (keyOf x).isSome) → ∀ e ∈ l₂, keyOf e = none

/-- The run invariant tying the transformer state to the ordering structure
of everything emitted so far. -/
def RunInv (t : TState) (E : List Chunk) : Prop :=
  (∀ e ∈ E, ∀ i k, keyOf e = some (i, k) →
      i < t.toolIndex ∨ (i = t.toolIndex ∧ t.state = ParserState.readingArgs)) ∧
  (t.state = ParserState.readingArgs → ∃ h ∈ E, keyOf h = some (t.toolIndex, 0)) ∧
  HeaderBeforeArgs E ∧ IdxMono E ∧ NoCallAfterTrailing E ∧
  (t.state = ParserState.idle → ∀ e ∈ E, keyOf e = none) ∧
  (Pattern E → t.state = ParserState.trailing)

/-- A complete one-call section: `S_BEG C_BEG f A_BEG {} C_END S_END`. -/
def sectionOneCall : Str :=
  tokSectionBegin ++ tokCallBegin ++ "f".data ++ tokArgBegin ++ "\x7b\x7d".data ++
  tokCallEnd ++ tokSectionEnd

/-- A terminal upstream chunk carrying only a misplaced finish reason. -/
def finishStopChunk : Chunk :=
  { choices := [{ index := 0, delta := { finishReason := some "stop".data } }] }

/-- A chunk with token-free reasoning and a misplaced finish reason. -/
def reasoningWithFinishChunk : Chunk :=
  { choices := [{ index := 0, delta := { reasoning := "hi".data, finishReason := some "stop".data } }] }

/-- A chunk that carries both reasoning text with a section start and a
misplaced finish reason. -/
def reasoningTokenFinishChunk : Chunk :=
  { choices := [{ index := 0, delta := { reasoning := "x".data ++ tokSectionBegin, finishReason := some "stop".data } }] }

/-- Occurrence bound: a found index leaves room for the pattern. -/
theorem strIndex_bound {s pat : Str} {i : Nat} (h : strIndex s pat = some i) :
    i + pat.length ≤ s.length := by
  induction s generalizing i with
  | nil =>
    unfold strIndex at h
    by_cases hp : pat = ([] : Str)
    · simp [hp] at h ⊢; omega
    · simp [hp] at h
  | cons c t ih =>
    unfold strIndex at h
    by_cases hp : pat.isPrefixOf (c :: t)
    · simp [hp] at h
      subst h
      have : pat <+: (c :: t) := by
        exact (List.isPrefixOf_iff_prefix).mp hp
      simpa using this.length_le
    · simp [hp] at h
      obtain ⟨j, hj, rfl⟩ := h
      have := ih hj
      simp [List.length_cons]
      omega

/-- Step equation: the trailing state emits nothing and keeps the state. -/
theorem loop_trailing {ms : Nat} {base : Chunk} {t : TState} {out : List Chunk}
    (h1 : t.state = ParserState.trailing) : loop ms base t out = (t, out) := by
  obtain ⟨st, buf, ti, cid⟩ := t
  simp only at h1
  subst h1
  unfold loop
  rfl

/-- Step equation: idle with no complete `S_BEG` waits. -/
theorem loop_idle_none {ms : Nat} {base : Chunk} {t : TState} {out : List Chunk}
    (h1 : t.state = ParserState.idle)
    (h2 : strIndex t.buf tokSectionBegin = none) : loop ms base t out = (t, out) := by
  obtain ⟨st, buf, ti, cid⟩ := t
  simp only at h1 h2 ⊢
  subst h1
  unfold loop
  split
  · rfl
  · next idx h => rw [h2] at h; exact absurd h (by simp)

/-- Step equation: idle with `S_BEG` found emits the preceding text as
content and enters the section. -/
theorem loop_idle_some {ms : Nat} {base : Chunk} {t : TState} {out : List Chunk} {idx : Nat}
    (h1 : t.state = ParserState.idle)
    (h2 : strIndex t.buf tokSectionBegin = some idx) :
    loop ms base t out =
      loop ms base
        { t with buf := t.buf.drop (idx + tokSectionBegin.length),
                 state := ParserState.inSection }
        (if 0 < idx then out ++ [makeContentChunk base (t.buf.take idx)] else out) := by
  obtain ⟨st, buf, ti, cid⟩ := t
  simp only at h1 h2 ⊢
  subst h1
  conv_lhs => unfold loop
  split
  · next h => rw [h2] at h; exact absurd h (by simp)
  · next idx' h =>
      rw [h2] at h
      cases h
      rfl

/-- Step equation: in-section with neither `C_BEG` nor `S_END` waits. -/
theorem loop_inSection_wait {ms : Nat} {base : Chunk} {t : TState} {out : List Chunk}
    (h1 : t.state = ParserState.inSection)
    (hE : strIndex t.buf tokSectionEnd = none)
    (hI : strIndex t.buf tokCallBegin = none) : loop ms base t out = (t, out) := by
  obtain ⟨st, buf, ti, cid⟩ := t
  simp only at h1 hE hI ⊢
  subst h1
  unfold loop
  split <;> simp_all

/-- Step equation: in-section with `S_END` before any `C_BEG` drops the
delimiter, emits any trailing text as content and becomes trailing. -/
theorem loop_inSection_end {ms : Nat} {base : Chunk} {t : TState} {out : List Chunk} {endIdx : Nat}
    (h1 : t.state = ParserState.inSection)
    (hE : strIndex t.buf tokSectionEnd = some endIdx)
    (hI : ∀ idx, strIndex t.buf tokCallBegin = some idx → endIdx < idx) :
    loop ms base t out =
      ({ t with buf := [], state := ParserState.trailing },
       if t.buf.drop (endIdx + tokSectionEnd.length) = [] then out
       else out ++ [makeContentChunk base (t.buf.drop (endIdx + tokSectionEnd.length))]) := by
  obtain ⟨st, buf, ti, cid⟩ := t
  simp only at h1 hE hI ⊢
  subst h1
  unfold loop
  split
  · next e h h' =>
      rw [hE] at h; cases h
      dsimp only
      by_cases hb : buf.drop (endIdx + tokSectionEnd.length) = ([] : Str)
      · rw [if_neg (by simp [hb]), if_pos hb]
      · rw [if_pos (by simp [hb]), if_neg hb]
  · next e i h h' =>
      rw [hE] at h; cases h
      have hlt := hI _ h'
      dsimp only
      rw [if_pos hlt]
      by_cases hb : buf.drop (endIdx + tokSectionEnd.length) = ([] : Str)
      · rw [if_neg (by simp [hb]), if_pos hb]
      · rw [if_pos (by simp [hb]), if_neg hb]
  · next h h' => rw [hE] at h; exact absurd h (by simp)
  · next i h h' => rw [hE] at h; exact absurd h (by simp)

/-- Step equation: in-section with a `C_BEG` not preceded by `S_END` drops
the delimiter and starts reading the identifier. -/
theorem loop_inSection_call {ms : Nat} {base : Chunk} {t : TState} {out : List Chunk} {idx : Nat}
    (h1 : t.state = ParserState.inSection)
    (hI : strIndex t.buf tokCallBegin = some idx)
    (hE : ∀ e, strIndex t.buf tokSectionEnd = some e → ¬ e < idx) :
    loop ms base t out =
      loop ms base
        { t with buf := t.buf.drop (idx + tokCallBegin.length),
                 state := ParserState.readingID } out := by
  obtain ⟨st, buf, ti, cid⟩ := t
  simp only at h1 hI hE ⊢
  subst h1
  conv_lhs => unfold loop
  split
  · next e h h' => rw [hI] at h'; exact absurd h' (by simp)
  · next e i h h' =>
      rw [hI] at h'; cases h'
      rw [h] at hE
      have := hE _ rfl
      simp [this]
  · next h h' => rw [hI] at h'; exact absurd h' (by simp)
  · next i h h' =>
      rw [hI] at h'; cases h'
      rfl

/-- Step equation: reading the identifier with no complete `A_BEG` waits. -/
theorem loop_readingID_none {ms : Nat} {base : Chunk} {t : TState} {out : List Chunk}
    (h1 : t.state = ParserState.readingID)
    (h2 : strIndex t.buf tokArgBegin = none) : loop ms base t out = (t, out) := by
  obtain ⟨st, buf, ti, cid⟩ := t
  simp only at h1 h2 ⊢
  subst h1
  unfold loop
  split
  · rfl
  · next idx h => rw [h2] at h; exact absurd h (by simp)

/-- Step equation: reading the identifier with `A_BEG` found parses the id
and the function name, emits the header and starts reading arguments. -/
theorem loop_readingID_some {ms : Nat} {base : Chunk} {t : TState} {out : List Chunk} {argIdx : Nat}
    (h1 : t.state = ParserState.readingID)
    (h2 : strIndex t.buf tokArgBegin = some argIdx) :
    loop ms base t out =
      loop ms base
        { t with currentID := (parseToolCallID (trimSpace (t.buf.take argIdx)) t.toolIndex ms).1,
                 buf := t.buf.drop (argIdx + tokArgBegin.length),
                 state := ParserState.readingArgs }
        (out ++ [makeToolCallHeader base
          ((parseToolCallID (trimSpace (t.buf.take argIdx)) t.toolIndex ms).1)
          t.toolIndex
          (parseFunctionName (trimSpace (t.buf.take argIdx)))]) := by
  obtain ⟨st, buf, ti, cid⟩ := t
  simp only at h1 h2 ⊢
  subst h1
  conv_lhs => unfold loop
  split
  · next h => rw [h2] at h; exact absurd h (by simp)
  · next idx h =>
      rw [h2] at h
      cases h
      rfl

/-- Step equation: reading arguments with no complete `C_END` flushes the
whole buffer (when non-empty) as one argument delta and clears it.  This is
the shipped behavior: no bytes are held back at a `<`. -/
theorem loop_readingArgs_none {ms : Nat} {base : Chunk} {t : TState} {out : List Chunk}
    (h1 : t.state = ParserState.readingArgs)
    (h2 : strIndex t.buf tokCallEnd = none) :
    loop ms base t out =
      if t.buf = [] then (t, out)
      else ({ t with buf := [] }, out ++ [makeArgsDelta base t.toolIndex t.buf]) := by
  obtain ⟨st, buf, ti, cid⟩ := t
  simp only at h1 h2 ⊢
  subst h1
  unfold loop
  split
  · next h => by_cases hb : buf = ([] : Str) <;> simp [hb]
  · next idx h => rw [h2] at h; exact absurd h (by simp)

/-- Step equation: reading arguments with `C_END` found emits the bytes
before it (when non-empty) as an argument delta, drops the delimiter,
increments the tool index and returns to the section state. -/
theorem loop_readingArgs_some {ms : Nat} {base : Chunk} {t : TState} {out : List Chunk} {endIdx : Nat}
    (h1 : t.state = ParserState.readingArgs)
    (h2 : strIndex t.buf tokCallEnd = some endIdx) :
    loop ms base t out =
      loop ms base
        { t with buf := t.buf.drop (endIdx + tokCallEnd.length),
                 toolIndex := t.toolIndex + 1,
                 state := ParserState.inSection }
        (if t.buf.take endIdx = [] then out
         else out ++ [makeArgsDelta base t.toolIndex (t.buf.take endIdx)]) := by
  obtain ⟨st, buf, ti, cid⟩ := t
  simp only at h1 h2 ⊢
  subst h1
  conv_lhs => unfold loop
  split
  · next h => rw [h2] at h; exact absurd h (by simp)
  · next idx h =>
      rw [h2] at h
      cases h
      by_cases hb : buf.take endIdx = ([] : Str) <;> simp [hb]

/-- Finish-reason promotion does not change the extracted reasoning text. -/
theorem extractReasoning_promoteFinish (c : Chunk) :
    extractReasoning (promoteFinish c) = extractReasoning c := by
  unfold promoteFinish extractReasoning
  cases hc : c.choices with
  | nil => simp [hc]
  | cons ch rest => cases hf : ch.delta.finishReason <;> simp [hc, hf]

/-- Finish-reason promotion does not change the content of the first
choice. -/
theorem contentOf_promoteFinish (c : Chunk) : contentOf (promoteFinish c) = contentOf c := by
  unfold promoteFinish contentOf
  cases hc : c.choices with
  | nil => simp [hc]
  | cons ch rest => cases hf : ch.delta.finishReason <;> simp [hc, hf]

/-- Finish-reason promotion does not change the tool calls of any choice. -/
theorem chunkToolCalls_promoteFinish (c : Chunk) :
    chunkToolCalls (promoteFinish c) = chunkToolCalls c := by
  unfold promoteFinish chunkToolCalls
  cases hc : c.choices with
  | nil => simp [hc]
  | cons ch rest =>
      cases hf : ch.delta.finishReason <;> cases rest <;> simp [hc, hf]

/-- Event equation: a chunk whose promoted form has no choices is emitted
verbatim (usage-only frames). -/
theorem processEvent_noChoices {t : TState} {ms : Nat} {raw : Chunk}
    (h : (promoteFinish raw).choices = []) :
    processEvent t ms raw = (t, [promoteFinish raw]) := by
  simp [processEvent, h]

/-- Event equation: the fast passthrough path.  In the idle state a chunk
whose extracted reasoning does not contain `<|tool_call` is emitted
verbatim (after finish-reason promotion). -/
theorem processEvent_passthrough {t : TState} {ms : Nat} {raw : Chunk}
    (h1 : t.state = ParserState.idle)
    (h2 : containsAnyToken (extractReasoning raw) = false) :
    processEvent t ms raw = (t, [promoteFinish raw]) := by
  unfold processEvent
  by_cases hc : (promoteFinish raw).choices = []
  · simp [hc]
  · simp [hc, extractReasoning_promoteFinish, h2, h1]

/-- Event equation: when the fast path does not apply, the chunk's
reasoning is processed by the state machine. -/
theorem processEvent_reason {t : TState} {ms : Nat} {raw : Chunk}
    (hc : (promoteFinish raw).choices ≠ [])
    (h2 : ¬ (containsAnyToken (extractReasoning raw) = false ∧ t.state = ParserState.idle)) :
    processEvent t ms raw =
      processReasoning t ms (promoteFinish raw) (extractReasoning raw) := by
  simp only [processEvent, extractReasoning_promoteFinish]
  simp [hc, h2]

/-- Characterization of a failed search: `strIndex` returns `none` exactly
when the pattern occurs nowhere in the string. -/
theorem strIndex_none_iff {s pat : Str} : strIndex s pat = none ↔ ¬ pat <:+: s := by
  induction s with
  | nil =>
    unfold strIndex
    by_cases hp : pat = ([] : Str)
    · simp [hp]
    · simp [hp]
  | cons c t ih =>
    unfold strIndex
    by_cases hp : pat.isPrefixOf (c :: t)
    · have hpre : pat <+: c :: t := List.isPrefixOf_iff_prefix.mp hp
      simp [hp]
      exact hpre.isInfix
    · have hpre : ¬ pat <+: c :: t := fun hcon =>
        hp (List.isPrefixOf_iff_prefix.mpr hcon)
      simp [hp, List.infix_cons_iff, hpre, ih]

/-- A fragment of a stream contains no `<|tool_call` when the whole stream
does not. -/
theorem containsAnyToken_frag {rs : List Str} {r : Str}
    (hall : ¬ tokCallStem <:+: rs.flatten) (hr : r ∈ rs) :
    containsAnyToken r = false := by
  have hinfix : r <:+: rs.flatten := List.infix_of_mem_flatten hr
  have : strIndex r tokCallStem = none :=
    strIndex_none_iff.mpr (fun hocc => hall (hocc.trans hinfix))
  simp [containsAnyToken, this]

/-- Idle passthrough run: while every chunk's reasoning avoids
`<|tool_call`, the transformer stays in its state and re-emits each chunk
verbatim (after finish-reason promotion). -/
theorem feedAll_idle_passthrough {ms : Nat} {cs : List Chunk} {t : TState}
    (h1 : t.state = ParserState.idle)
    (h2 : ∀ c ∈ cs, containsAnyToken (extractReasoning c) = false) :
    feedAll t ms cs = (t, cs.map promoteFinish) := by
  induction cs with
  | nil => rfl
  | cons c cs ih =>
    have hc : containsAnyToken (extractReasoning c) = false := h2 c (by simp)
    have hpe := @processEvent_passthrough t ms c h1 hc
    have hrest := ih (fun c hm => h2 c (by simp [hm]))
    simp [feedAll, hpe, hrest]

/-- Output decomposition of the state loop: the loop only appends to its
accumulator, and every appended chunk is a content chunk, a header, or an
argument delta built from the base chunk, tool-call emissions carrying an
index at least the loop's incoming tool index. -/
theorem loop_out_decomp (ms : Nat) (base : Chunk) (t : TState) (out : List Chunk) :
    ∃ nw, (loop ms base t out).2 = out ++ nw ∧
      ∀ e ∈ nw,
        (∃ s, e = makeContentChunk base s) ∨
        (∃ cid i nm, t.toolIndex ≤ i ∧ e = makeToolCallHeader base cid i nm) ∨
        (∃ i s, t.toolIndex ≤ i ∧ e = makeArgsDelta base i s) := by
  induction t, out using loop.induct ms base with
  | case1 t out h1 h2 =>
      exact ⟨[], by simp [loop_idle_none h1 h2], by simp⟩
  | case2 t out h1 idx h2 out1 ih =>
      unfold_let out1 at ih
      rw [loop_idle_some h1 h2]
      obtain ⟨nw, heq, hprop⟩ := ih
      by_cases hz : 0 < idx
      · rw [dif_pos hz] at heq
        rw [if_pos hz]
        refine ⟨[makeContentChunk base (t.buf.take idx)] ++ nw, heq.trans (by simp), ?_⟩
        intro e he
        rcases List.mem_append.mp he with he | he
        · exact Or.inl ⟨_, by simpa using he⟩
        · exact hprop e he
      · rw [dif_neg hz] at heq
        rw [if_neg hz]
        exact ⟨nw, heq, hprop⟩
  | case3 t out h1 endIdx hE hI trailing htr =>
      rw [loop_inSection_end h1 hE (by intro i hi; rw [hI] at hi; cases hi)]
      by_cases hb : t.buf.drop (endIdx + tokSectionEnd.length) = ([] : Str)
      · exact absurd hb htr
      · rw [if_neg hb]
        exact ⟨[makeContentChunk base (t.buf.drop (endIdx + tokSectionEnd.length))],
          rfl, by intro e he; simp at he; exact Or.inl ⟨_, he⟩⟩
  | case4 t out h1 endIdx hE hI trailing htr =>
      rw [loop_inSection_end h1 hE (by intro i hi; rw [hI] at hi; cases hi)]
      have hb : t.buf.drop (endIdx + tokSectionEnd.length) = ([] : Str) :=
        not_not.mp htr
      rw [if_pos hb]
      exact ⟨[], by simp, by simp⟩
  | case5 t out h1 endIdx idx hE hI hlt trailing htr =>
      rw [loop_inSection_end h1 hE (by intro i hi; rw [hI] at hi; cases hi; exact hlt)]
      by_cases hb : t.buf.drop (endIdx + tokSectionEnd.length) = ([] : Str)
      · exact absurd hb htr
      · rw [if_neg hb]
        exact ⟨[makeContentChunk base (t.buf.drop (endIdx + tokSectionEnd.length))],
          rfl, by intro e he; simp at he; exact Or.inl ⟨_, he⟩⟩
  | case6 t out h1 endIdx idx hE hI hlt trailing htr =>
      rw [loop_inSection_end h1 hE (by intro i hi; rw [hI] at hi; cases hi; exact hlt)]
      have hb : t.buf.drop (endIdx + tokSectionEnd.length) = ([] : Str) :=
        not_not.mp htr
      rw [if_pos hb]
      exact ⟨[], by simp, by simp⟩
  | case7 t out h1 endIdx idx hE hI hnlt ih =>
      rw [loop_inSection_call h1 hI (by intro e he; rw [hE] at he; cases he; exact hnlt)]
      exact ih
  | case8 t out h1 hE hI =>
      exact ⟨[], by simp [loop_inSection_wait h1 hE hI], by simp⟩
  | case9 t out h1 idx hE hI ih =>
      rw [loop_inSection_call h1 hI (by intro e he; rw [hE] at he; cases he)]
      exact ih
  | case10 t out h1 h2 =>
      exact ⟨[], by simp [loop_readingID_none h1 h2], by simp⟩
  | case11 t out h1 idx h2 rawID cid name ih =>
      unfold_let cid name rawID at ih
      rw [loop_readingID_some h1 h2]
      obtain ⟨nw, heq, hprop⟩ := ih
      refine ⟨[makeToolCallHeader base
        ((parseToolCallID (trimSpace (t.buf.take idx)) t.toolIndex ms).1) t.toolIndex
        (parseFunctionName (trimSpace (t.buf.take idx)))] ++ nw,
        heq.trans (by simp), ?_⟩
      intro e he
      rcases List.mem_append.mp he with he | he
      · simp at he
        exact Or.inr (Or.inl ⟨_, t.toolIndex, _, le_refl _, he⟩)
      · exact hprop e he
  | case12 t out h1 h2 hb =>
      rw [loop_readingArgs_none h1 h2, if_neg hb]
      refine ⟨[makeArgsDelta base t.toolIndex t.buf], rfl, ?_⟩
      intro e he
      simp at he
      exact Or.inr (Or.inr ⟨t.toolIndex, t.buf, le_refl _, he⟩)
  | case13 t out h1 h2 hb =>
      have hb' : t.buf = ([] : Str) := by simpa using hb
      rw [loop_readingArgs_none h1 h2, if_pos hb']
      exact ⟨[], by simp, by simp⟩
  | case14 t out h1 idx h2 args out1 ih =>
      unfold_let out1 args at ih
      rw [loop_readingArgs_some h1 h2]
      obtain ⟨nw, heq, hprop⟩ := ih
      have hmono : ∀ e ∈ nw,
          (∃ s, e = makeContentChunk base s) ∨
          (∃ cid i nm, t.toolIndex ≤ i ∧ e = makeToolCallHeader base cid i nm) ∨
          (∃ i s, t.toolIndex ≤ i ∧ e = makeArgsDelta base i s) := by
        intro e he
        rcases hprop e he with h | ⟨cid', i, nm, hle, he'⟩ | ⟨i, s, hle, he'⟩
        · exact Or.inl h
        · exact Or.inr (Or.inl ⟨cid', i, nm, by simp at hle; omega, he'⟩)
        · exact Or.inr (Or.inr ⟨i, s, by simp at hle; omega, he'⟩)
      by_cases hz : t.buf.take idx = ([] : Str)
      · rw [dif_neg (not_not_intro hz)] at heq
        rw [if_pos hz]
        exact ⟨nw, heq, hmono⟩
      · rw [dif_pos hz] at heq
        rw [if_neg hz]
        refine ⟨[makeArgsDelta base t.toolIndex (t.buf.take idx)] ++ nw,
          heq.trans (by simp), ?_⟩
        intro e he
        rcases List.mem_append.mp he with he | he
        · simp at he
          exact Or.inr (Or.inr ⟨t.toolIndex, _, le_refl _, he⟩)
        · exact hmono e he
  | case15 t out h1 =>
      exact ⟨[], by simp [loop_trailing h1], by simp⟩

/-- A content chunk carries no tool calls. -/
theorem chunkToolCalls_makeContentChunk (base : Chunk) (s : Str) :
    chunkToolCalls (makeContentChunk base s) = [] := rfl

/-- A header chunk carries exactly its one tool call. -/
theorem chunkToolCalls_makeToolCallHeader (base : Chunk) (cid : Str) (i : Nat) (nm : Str) :
    chunkToolCalls (makeToolCallHeader base cid i nm) =
      [{ id := cid, type := "function".data, index := i,
         function := { name := nm, arguments := [] } }] := rfl

/-- An argument delta carries exactly its one tool call. -/
theorem chunkToolCalls_makeArgsDelta (base : Chunk) (i : Nat) (s : Str) :
    chunkToolCalls (makeArgsDelta base i s) =
      [{ id := [], type := [], index := i,
         function := { name := [], arguments := s } }] := rfl

/-- Argument contribution of a content chunk is empty. -/
theorem argsFor_makeContentChunk (j : Nat) (base : Chunk) (s : Str) :
    argsFor j (makeContentChunk base s) = [] := rfl

/-- Argument contribution of a header chunk is empty (its `arguments`
field is the empty string). -/
theorem argsFor_makeToolCallHeader (j : Nat) (base : Chunk) (cid : Str) (i : Nat) (nm : Str) :
    argsFor j (makeToolCallHeader base cid i nm) = [] := by
  unfold argsFor
  rw [chunkToolCalls_makeToolCallHeader]
  by_cases h : i = j <;> simp [h]

/-- Argument contribution of an argument delta. -/
theorem argsFor_makeArgsDelta (j : Nat) (base : Chunk) (i : Nat) (s : Str) :
    argsFor j (makeArgsDelta base i s) = if i = j then s else [] := by
  unfold argsFor
  rw [chunkToolCalls_makeArgsDelta]

/-- Key of a content chunk. -/
theorem keyOf_makeContentChunk (base : Chunk) (s : Str) :
    keyOf (makeContentChunk base s) = none := rfl

/-- Key of a header chunk. -/
theorem keyOf_makeToolCallHeader (base : Chunk) (cid : Str) (i : Nat) (nm : Str) :
    keyOf (makeToolCallHeader base cid i nm) = some (i, 0) := by
  unfold keyOf
  rw [chunkToolCalls_makeToolCallHeader]
  simp [show ("function".data : Str) ≠ [] from by decide]

/-- Key of an argument delta. -/
theorem keyOf_makeArgsDelta (base : Chunk) (i : Nat) (s : Str) :
    keyOf (makeArgsDelta base i s) = some (i, 1) := by
  unfold keyOf
  rw [chunkToolCalls_makeArgsDelta]
  simp

/-- Promotion preserves emptiness of the choices array. -/
theorem promoteFinish_choices_nil_iff (c : Chunk) :
    (promoteFinish c).choices = [] ↔ c.choices = [] := by
  unfold promoteFinish
  cases hc : c.choices with
  | nil => simp [hc]
  | cons ch rest => cases hf : ch.delta.finishReason <;> simp [hc, hf]

/-- Feeding a concatenation of two upstream sequences. -/
theorem feedAll_append (t : TState) (ms : Nat) (xs ys : List Chunk) :
    feedAll t ms (xs ++ ys) =
      ((feedAll (feedAll t ms xs).1 ms ys).1,
       (feedAll t ms xs).2 ++ (feedAll (feedAll t ms xs).1 ms ys).2) := by
  induction xs generalizing t with
  | nil => simp [feedAll]
  | cons c xs ih => simp [feedAll, ih]

/-- Event equation: in `ReadingArgs` with an empty buffer, a chunk whose
reasoning holds no complete `C_END` makes the rewriter emit the whole
reasoning text as a single argument delta (the state is unchanged). -/
theorem processEvent_readingArgs_noEnd {t : TState} {ms : Nat} {raw : Chunk}
    (h1 : t.state = ParserState.readingArgs) (hbuf : t.buf = [])
    (hne : (promoteFinish raw).choices ≠ [])
    (hnoend : strIndex (extractReasoning raw) tokCallEnd = none) :
    processEvent t ms raw =
      (t, if extractReasoning raw = [] then []
          else [makeArgsDelta (promoteFinish raw) t.toolIndex (extractReasoning raw)]) := by
  rw [processEvent_reason hne (by simp [h1])]
  unfold processReasoning
  rw [loop_readingArgs_none (by simp [h1]) (by simp [hbuf, hnoend])]
  by_cases hr : extractReasoning raw = ([] : Str)
  · rw [if_pos (by simp [hbuf, hr]), if_pos hr]
    obtain ⟨st, buf, ti, cid⟩ := t
    simp only at hbuf h1
    subst hbuf h1
    simp [hr]
  · rw [if_neg (by simp [hbuf, hr]), if_neg hr]
    obtain ⟨st, buf, ti, cid⟩ := t
    simp only at hbuf h1
    subst hbuf h1
    simp [hr]

/-- Argument concatenation distributes over appended emission lists. -/
theorem argsConcat_append (j : Nat) (xs ys : List Chunk) :
    argsConcat j (xs ++ ys) = argsConcat j xs ++ argsConcat j ys := by
  simp [argsConcat]

/-- An emission list whose members all contribute nothing to call `j`
contributes nothing in total. -/
theorem argsConcat_eq_nil {j : Nat} {es : List Chunk}
    (h : ∀ e ∈ es, argsFor j e = []) : argsConcat j es = [] := by
  induction es with
  | nil => rfl
  | cons e es ih =>
      have h0 : argsFor j e = [] := h e (by simp)
      have h1 : argsConcat j es = [] := ih (fun e he => h e (by simp [he]))
      simp [argsConcat] at h1 ⊢
      exact ⟨h0, h1⟩

/-- Reasoning concatenation distributes over appended chunk lists. -/
theorem reasoningConcat_append (xs ys : List Chunk) :
    reasoningConcat (xs ++ ys) = reasoningConcat xs ++ reasoningConcat ys := by
  simp [reasoningConcat]

/-- Run equation: in `ReadingArgs` with an empty buffer, a sequence of
chunks none of whose reasoning texts holds a complete `C_END` leaves the
state unchanged and streams every reasoning byte out as argument deltas of
the current tool call, in order, and of no other call. -/
theorem feedAll_readingArgs_noEnd {ms : Nat} {cs : List Chunk} {t : TState}
    (h1 : t.state = ParserState.readingArgs) (hbuf : t.buf = [])
    (hne : ∀ c ∈ cs, (promoteFinish c).choices ≠ [])
    (hnoend : ∀ c ∈ cs, strIndex (extractReasoning c) tokCallEnd = none) :
    (feedAll t ms cs).1 = t ∧
    ∀ j, argsConcat j (feedAll t ms cs).2 =
      if j = t.toolIndex then reasoningConcat cs else [] := by
  induction cs generalizing t with
  | nil =>
      refine ⟨rfl, fun j => ?_⟩
      by_cases hj : j = t.toolIndex <;> simp [feedAll, argsConcat, reasoningConcat, hj]
  | cons c cs ih =>
      have hpe := @processEvent_readingArgs_noEnd t ms c
        h1 hbuf (hne c (by simp)) (hnoend c (by simp))
      obtain ⟨ihs, iha⟩ := ih (t := t) h1 hbuf
        (fun c hm => hne c (by simp [hm])) (fun c hm => hnoend c (by simp [hm]))
      constructor
      · show (feedAll t ms (c :: cs)).1 = t
        simp only [feedAll, hpe]
        exact ihs
      · intro j
        have hsplit : (feedAll t ms (c :: cs)).2 =
            (if extractReasoning c = [] then []
             else [makeArgsDelta (promoteFinish c) t.toolIndex (extractReasoning c)]) ++
            (feedAll t ms cs).2 := by
          simp only [feedAll, hpe]
        rw [hsplit, argsConcat_append, iha j]
        by_cases hj : j = t.toolIndex
        · subst hj
          by_cases hr : extractReasoning c = ([] : Str) <;>
            simp [hr, argsConcat, argsFor_makeArgsDelta, reasoningConcat]
        · by_cases hr : extractReasoning c = ([] : Str) <;>
            simp [hr, argsConcat, argsFor_makeArgsDelta, hj, Ne.symm hj]

/-- Event equation: in `ReadingArgs` with an empty buffer, a chunk whose
reasoning completes the call (first `C_END` at position `m`) contributes to
the current tool call exactly the bytes strictly before that `C_END`,
whatever further emissions the rest of the chunk produces. -/
theorem processEvent_readingArgs_end {t : TState} {ms : Nat} {raw : Chunk} {m : Nat}
    (h1 : t.state = ParserState.readingArgs) (hbuf : t.buf = [])
    (hne : (promoteFinish raw).choices ≠ [])
    (hend : strIndex (extractReasoning raw) tokCallEnd = some m) :
    argsConcat t.toolIndex (processEvent t ms raw).2 = (extractReasoning raw).take m := by
  rw [processEvent_reason hne (by simp [h1])]
  unfold processReasoning
  obtain ⟨st, buf, ti, cid⟩ := t
  simp only at h1 hbuf ⊢
  subst h1
  subst hbuf
  simp only [List.nil_append]
  rw [@loop_readingArgs_some ms (promoteFinish raw)
    ⟨ParserState.readingArgs, extractReasoning raw, ti, cid⟩ [] m rfl hend]
  dsimp only
  rw [List.nil_append]
  obtain ⟨nw, heq, hprop⟩ := loop_out_decomp ms (promoteFinish raw)
    ⟨ParserState.inSection, (extractReasoning raw).drop (m + tokCallEnd.length), ti + 1, cid⟩
    (if (extractReasoning raw).take m = [] then []
     else [makeArgsDelta (promoteFinish raw) ti ((extractReasoning raw).take m)])
  rw [heq]
  rw [argsConcat_append]
  have hnw : argsConcat ti nw = [] := by
    refine argsConcat_eq_nil (fun e he => ?_)
    rcases hprop e he with ⟨s, rfl⟩ | ⟨cid2, i, nm, hle, rfl⟩ | ⟨i, s, hle, rfl⟩
    · exact argsFor_makeContentChunk _ _ _
    · exact argsFor_makeToolCallHeader _ _ _ _ _
    · rw [argsFor_makeArgsDelta]
      simp only at hle
      rw [if_neg (by omega)]
  rw [hnw]
  by_cases hr : (extractReasoning raw).take m = ([] : Str)
  · rw [if_pos hr]
    simp [argsConcat, hr]
  · rw [if_neg hr]
    simp [argsConcat, argsFor_makeArgsDelta]

/-- Strict buffer decrease when a non-empty token is dropped through. -/
theorem drop_len_lt {s tok : Str} {i : Nat}
    (h : strIndex s tok = some i) (htok : 0 < tok.length) :
    (s.drop (i + tok.length)).length < s.length := by
  have hb := strIndex_bound h
  simp [List.length_drop]
  omega

/-- The fuel evaluator agrees with the state loop given enough fuel. -/
theorem loopF_eq (ms : Nat) (base : Chunk) (t : TState) (out : List Chunk) :
    ∀ fuel, t.buf.length < fuel → loopF ms base fuel t out = loop ms base t out := by
  induction t, out using loop.induct ms base with
  | case1 t out h1 h2 =>
      intro fuel hf
      cases fuel with
      | zero => omega
      | succ n => simp [loopF, h1, h2, loop_idle_none h1 h2]
  | case2 t out h1 idx h2 out1 ih =>
      intro fuel hf
      cases fuel with
      | zero => omega
      | succ n =>
        have hlt := drop_len_lt h2 (by simp [tokSectionBegin])
        have ih' := ih n (by simp only at hlt ⊢; omega)
        rw [loop_idle_some h1 h2]
        unfold_let out1 at ih'
        simp only [loopF, h1, h2]
        by_cases hz : 0 < idx
        · rw [dif_pos hz] at ih'
          rw [if_pos hz]
          exact ih'
        · rw [dif_neg hz] at ih'
          rw [if_neg hz]
          exact ih'
  | case3 t out h1 endIdx hE hI trailing htr =>
      intro fuel hf
      cases fuel with
      | zero => omega
      | succ n =>
        rw [loop_inSection_end h1 hE (by intro i hi; rw [hI] at hi; cases hi)]
        by_cases hb : t.buf.drop (endIdx + tokSectionEnd.length) = ([] : Str)
        · exact absurd hb htr
        · simp only [loopF, h1, hE, hI]
          rw [if_neg hb, if_neg hb]
  | case4 t out h1 endIdx hE hI trailing htr =>
      intro fuel hf
      cases fuel with
      | zero => omega
      | succ n =>
        rw [loop_inSection_end h1 hE (by intro i hi; rw [hI] at hi; cases hi)]
        have hb : t.buf.drop (endIdx + tokSectionEnd.length) = ([] : Str) := not_not.mp htr
        simp only [loopF, h1, hE, hI]
        rw [if_pos hb, if_pos hb]
  | case5 t out h1 endIdx idx hE hI hlt trailing htr =>
      intro fuel hf
      cases fuel with
      | zero => omega
      | succ n =>
        rw [loop_inSection_end h1 hE (by intro i hi; rw [hI] at hi; cases hi; exact hlt)]
        by_cases hb : t.buf.drop (endIdx + tokSectionEnd.length) = ([] : Str)
        · exact absurd hb htr
        · simp only [loopF, h1, hE, hI]
          rw [if_pos hlt, if_neg hb, if_neg hb]
  | case6 t out h1 endIdx idx hE hI hlt trailing htr =>
      intro fuel hf
      cases fuel with
      | zero => omega
      | succ n =>
        rw [loop_inSection_end h1 hE (by intro i hi; rw [hI] at hi; cases hi; exact hlt)]
        have hb : t.buf.drop (endIdx + tokSectionEnd.length) = ([] : Str) := not_not.mp htr
        simp only [loopF, h1, hE, hI]
        rw [if_pos hlt, if_pos hb, if_pos hb]
  | case7 t out h1 endIdx idx hE hI hnlt ih =>
      intro fuel hf
      cases fuel with
      | zero => omega
      | succ n =>
        have hlt := drop_len_lt hI (by simp [tokCallBegin])
        have ih' := ih n (by simp only at hlt ⊢; omega)
        rw [loop_inSection_call h1 hI (by intro e he; rw [hE] at he; cases he; exact hnlt)]
        simp only [loopF, h1, hE, hI]
        rw [if_neg hnlt]
        exact ih'
  | case8 t out h1 hE hI =>
      intro fuel hf
      cases fuel with
      | zero => omega
      | succ n => simp [loopF, h1, hE, hI, loop_inSection_wait h1 hE hI]
  | case9 t out h1 idx hE hI ih =>
      intro fuel hf
      cases fuel with
      | zero => omega
      | succ n =>
        have hlt := drop_len_lt hI (by simp [tokCallBegin])
        have ih' := ih n (by simp only at hlt ⊢; omega)
        rw [loop_inSection_call h1 hI (by intro e he; rw [hE] at he; cases he)]
        simp only [loopF, h1, hE, hI]
        exact ih'
  | case10 t out h1 h2 =>
      intro fuel hf
      cases fuel with
      | zero => omega
      | succ n => simp [loopF, h1, h2, loop_readingID_none h1 h2]
  | case11 t out h1 idx h2 rawID cid name ih =>
      intro fuel hf
      cases fuel with
      | zero => omega
      | succ n =>
        have hlt := drop_len_lt h2 (by simp [tokArgBegin])
        have ih' := ih n (by simp only at hlt ⊢; omega)
        unfold_let cid name rawID at ih'
        rw [loop_readingID_some h1 h2]
        simp only [loopF, h1, h2]
        exact ih'
  | case12 t out h1 h2 hb =>
      intro fuel hf
      cases fuel with
      | zero => omega
      | succ n =>
        rw [loop_readingArgs_none h1 h2, if_neg hb]
        simp only [loopF, h1, h2]
        rw [if_neg hb]
  | case13 t out h1 h2 hb =>
      intro fuel hf
      cases fuel with
      | zero => omega
      | succ n =>
        have hb' : t.buf = ([] : Str) := not_not.mp hb
        rw [loop_readingArgs_none h1 h2, if_pos hb']
        simp only [loopF, h1, h2]
        rw [if_pos hb']
  | case14 t out h1 idx h2 args out1 ih =>
      intro fuel hf
      cases fuel with
      | zero => omega
      | succ n =>
        have hlt := drop_len_lt h2 (by simp [tokCallEnd])
        have ih' := ih n (by simp only at hlt ⊢; omega)
        unfold_let out1 args at ih'
        rw [loop_readingArgs_some h1 h2]
        simp only [loopF, h1, h2]
        by_cases hz : t.buf.take idx = ([] : Str)
        · rw [dif_neg (not_not_intro hz)] at ih'
          simpa [hz] using ih'
        · rw [dif_pos hz] at ih'
          simpa [hz] using ih'
  | case15 t out h1 =>
      intro fuel hf
      cases fuel with
      | zero => omega
      | succ n => simp [loopF, h1, loop_trailing h1]

/-- Evaluation lemma: `processReasoning` is computed by its fuel form. -/
theorem processReasoning_evalF (t : TState) (ms : Nat) (base : Chunk) (text : Str) :
    processReasoning t ms base text = processReasoningF t ms base text := by
  unfold processReasoning processReasoningF
  rw [loopF_eq]
  simp

/-- Evaluation lemma: `processEvent` is computed by its fuel form. -/
theorem processEvent_evalF (t : TState) (ms : Nat) (raw : Chunk) :
    processEvent t ms raw = processEventF t ms raw := by
  unfold processEvent processEventF
  simp only [processReasoning_evalF]

/-- Evaluation lemma: `feedAll` is computed by its fuel form. -/
theorem feedAll_evalF (t : TState) (ms : Nat) (cs : List Chunk) :
    feedAll t ms cs = feedAllF t ms cs := by
  induction cs generalizing t with
  | nil => rfl
  | cons c cs ih => simp only [feedAll, feedAllF, processEvent_evalF, ih]

/-- Decomposition of a one-element extension of a list. -/
theorem append_singleton_split {α : Type} {E : List α} {x e : α} {l₁ l₂ : List α}
    (h : E ++ [x] = l₁ ++ e :: l₂) :
    (∃ l₂', E = l₁ ++ e :: l₂' ∧ l₂ = l₂' ++ [x]) ∨ (l₁ = E ∧ e = x ∧ l₂ = []) := by
  induction E generalizing l₁ with
  | nil =>
    cases l₁ with
    | nil =>
        simp at h
        exact Or.inr ⟨rfl, h.1.symm, h.2⟩
    | cons a l₁' =>
        simp at h
  | cons b E' ih =>
    cases l₁ with
    | nil =>
        simp at h
        obtain ⟨rfl, h2⟩ := h
        exact Or.inl ⟨E', by simp, h2.symm⟩
    | cons a l₁' =>
        simp at h
        obtain ⟨rfl, h2⟩ := h
        rcases ih h2 with ⟨l₂', hE', rfl⟩ | ⟨rfl, rfl, rfl⟩
        · exact Or.inl ⟨l₂', by simp [hE'], rfl⟩
        · exact Or.inr ⟨rfl, rfl, rfl⟩

/-- Appending preserves header-before-args when the new chunk, if an
argument delta, already has its header in the list. -/
theorem headerBeforeArgs_append {E : List Chunk} {x : Chunk}
    (hE : HeaderBeforeArgs E)
    (hx : ∀ i, keyOf x = some (i, 1) → ∃ h ∈ E, keyOf h = some (i, 0)) :
    HeaderBeforeArgs (E ++ [x]) := by
  intro l₁ e l₂ i heq hk
  rcases append_singleton_split heq with ⟨l₂', hE', _⟩ | ⟨rfl, rfl, rfl⟩
  · exact hE l₁ e l₂' i hE' hk
  · exact hx i hk

/-- Appending preserves index monotonicity when the new chunk's index
dominates every index already present. -/
theorem idxMono_append {E : List Chunk} {x : Chunk}
    (hE : IdxMono E)
    (hx : ∀ i k, keyOf x = some (i, k) →
      ∀ e ∈ E, ∀ i' k', keyOf e = some (i', k') → i' ≤ i) :
    IdxMono (E ++ [x]) := by
  intro l₁ e l₂ e' i k i' k' heq hmem hk hk'
  rcases append_singleton_split heq with ⟨l₂', hE', rfl⟩ | ⟨rfl, rfl, rfl⟩
  · rcases List.mem_append.mp hmem with hm | hm
    · exact hE l₁ e l₂' e' i k i' k' hE' hm hk hk'
    · simp at hm
      subst hm
      exact hx i' k' hk' e (by rw [hE']; simp) i k hk
  · simp at hmem

/-- Appending preserves the no-call-after-trailing property when either no
pattern exists yet or the new chunk is not a tool-call emission. -/
theorem noCallAfterTrailing_append {E : List Chunk} {x : Chunk}
    (hE : NoCallAfterTrailing E)
    (hx : ¬ Pattern E ∨ keyOf x = none) :
    NoCallAfterTrailing (E ++ [x]) := by
  intro l₁ ct l₂ heq hct hkeyed e he
  rcases append_singleton_split heq with ⟨l₂', hE', rfl⟩ | ⟨rfl, rfl, rfl⟩
  · rcases List.mem_append.mp he with hm | hm
    · exact hE l₁ ct l₂' hE' hct hkeyed e hm
    · simp at hm
      subst hm
      rcases hx with hnp | hk
      · exact absurd ⟨l₁, ct, l₂', hE', hct, hkeyed⟩ hnp
      · exact hk
  · simp at he

/-- A pattern in a one-element extension either already existed or is
created by the new chunk being content after an existing tool call. -/
theorem pattern_append_cases {E : List Chunk} {x : Chunk}
    (hp : Pattern (E ++ [x])) :
    Pattern E ∨ (isContentChunk x ∧ ∃ h ∈ E, (keyOf h).isSome) := by
  obtain ⟨l₁, ct, l₂, heq, hct, hkeyed⟩ := hp
  rcases append_singleton_split heq with ⟨l₂', hE', _⟩ | ⟨rfl, rfl, rfl⟩
  · exact Or.inl ⟨l₁, ct, l₂', hE', hct, hkeyed⟩
  · exact Or.inr ⟨hct, hkeyed⟩

/-- A chunk none of whose choices carries tool calls is not classified as a
tool-call emission. -/
theorem keyOf_of_no_toolcalls {c : Chunk}
    (htc : ∀ ch ∈ c.choices, ch.delta.toolCalls = []) : keyOf c = none := by
  unfold keyOf chunkToolCalls
  cases hc : c.choices with
  | nil => rfl
  | cons ch rest =>
      cases rest with
      | nil => simp [htc ch (by simp [hc])]
      | cons _ _ => rfl

/-- Specialization of the first invariant component away from the
`ReadingArgs` state. -/
theorem i1_lt {t : TState} {E : List Chunk}
    (hI1 : ∀ e ∈ E, ∀ i k, keyOf e = some (i, k) →
      i < t.toolIndex ∨ (i = t.toolIndex ∧ t.state = ParserState.readingArgs))
    (hne : t.state ≠ ParserState.readingArgs) :
    ∀ e ∈ E, ∀ i k, keyOf e = some (i, k) → i < t.toolIndex :=
  fun e he i k hk =>
    (hI1 e he i k hk).resolve_right (fun hr => hne hr.2)

/-- The state loop preserves the run invariant: whatever it appends to the
emissions keeps header-before-args, index monotonicity and the
no-call-after-trailing-content property. -/
theorem loop_runInv (ms : Nat) (base : Chunk) (t : TState) (out : List Chunk) :
    ∀ P, RunInv t (P ++ out) →
      RunInv (loop ms base t out).1 (P ++ (loop ms base t out).2) := by
  induction t, out using loop.induct ms base with
  | case1 t out h1 h2 =>
      intro P hinv
      rw [loop_idle_none h1 h2]
      exact hinv
  | case2 t out h1 idx h2 out1 ih =>
      intro P hinv
      obtain ⟨hI1, hI2, hHBA, hMono, hNCAT, hI6, hI7⟩ := hinv
      rw [loop_idle_some h1 h2]
      unfold_let out1 at ih
      have hnokey : ∀ e ∈ P ++ out, keyOf e = none := hI6 h1
      have hnopat : ¬ Pattern (P ++ out) := fun hp => by
        have h' := hI7 hp; rw [h1] at h'; exact absurd h' (by decide)
      by_cases hz : 0 < idx
      · rw [if_pos hz]
        rw [dif_pos hz] at ih
        refine ih P ?_
        rw [← List.append_assoc]
        refine ⟨?_, ?_, ?_, ?_, ?_, ?_, ?_⟩
        · intro e he i k hk
          rcases List.mem_append.mp he with hm | hm
          · exact absurd (hnokey e hm) (by simp [hk])
          · simp at hm
            subst hm
            exact absurd hk (by simp [keyOf_makeContentChunk])
        · intro hst; simp at hst
        · exact headerBeforeArgs_append hHBA
            (fun i hk => absurd hk (by simp [keyOf_makeContentChunk]))
        · exact idxMono_append hMono
            (fun i k hk => absurd hk (by simp [keyOf_makeContentChunk]))
        · exact noCallAfterTrailing_append hNCAT (Or.inr (keyOf_makeContentChunk _ _))
        · intro hst; simp at hst
        · intro hp
          rcases pattern_append_cases hp with hp | ⟨_, h', hmem, hkey⟩
          · exact absurd hp hnopat
          · rw [hnokey h' hmem] at hkey
            simp at hkey
      · rw [if_neg hz]
        rw [dif_neg hz] at ih
        refine ih P ?_
        refine ⟨?_, ?_, hHBA, hMono, hNCAT, ?_, ?_⟩
        · intro e he i k hk
          exact absurd (hnokey e he) (by simp [hk])
        · intro hst; simp at hst
        · intro hst; simp at hst
        · intro hp; exact absurd hp hnopat
  | case3 t out h1 endIdx hE hI trailing htr =>
      intro P hinv
      obtain ⟨hI1, hI2, hHBA, hMono, hNCAT, hI6, hI7⟩ := hinv
      rw [loop_inSection_end h1 hE (by intro i hi; rw [hI] at hi; cases hi)]
      by_cases hb : t.buf.drop (endIdx + tokSectionEnd.length) = ([] : Str)
      · exact absurd hb htr
      rw [if_neg hb, ← List.append_assoc]
      have hlt := i1_lt hI1 (by rw [h1]; decide)
      refine ⟨?_, ?_, ?_, ?_, ?_, ?_, ?_⟩
      · intro e he i k hk
        rcases List.mem_append.mp he with hm | hm
        · exact Or.inl (hlt e hm i k hk)
        · simp at hm
          subst hm
          exact absurd hk (by simp [keyOf_makeContentChunk])
      · intro hst; simp at hst
      · exact headerBeforeArgs_append hHBA
          (fun i hk => absurd hk (by simp [keyOf_makeContentChunk]))
      · exact idxMono_append hMono
          (fun i k hk => absurd hk (by simp [keyOf_makeContentChunk]))
      · exact noCallAfterTrailing_append hNCAT (Or.inr (keyOf_makeContentChunk _ _))
      · intro hst; simp at hst
      · intro _; rfl
  | case4 t out h1 endIdx hE hI trailing htr =>
      intro P hinv
      obtain ⟨hI1, hI2, hHBA, hMono, hNCAT, hI6, hI7⟩ := hinv
      rw [loop_inSection_end h1 hE (by intro i hi; rw [hI] at hi; cases hi)]
      rw [if_pos (not_not.mp htr)]
      have hlt := i1_lt hI1 (by rw [h1]; decide)
      refine ⟨?_, ?_, hHBA, hMono, hNCAT, ?_, ?_⟩
      · intro e he i k hk
        exact Or.inl (hlt e he i k hk)
      · intro hst; simp at hst
      · intro hst; simp at hst
      · intro _; rfl
  | case5 t out h1 endIdx idx hE hI hlt2 trailing htr =>
      intro P hinv
      obtain ⟨hI1, hI2, hHBA, hMono, hNCAT, hI6, hI7⟩ := hinv
      rw [loop_inSection_end h1 hE (by intro i hi; rw [hI] at hi; cases hi; exact hlt2)]
      by_cases hb : t.buf.drop (endIdx + tokSectionEnd.length) = ([] : Str)
      · exact absurd hb htr
      rw [if_neg hb, ← List.append_assoc]
      have hlt := i1_lt hI1 (by rw [h1]; decide)
      refine ⟨?_, ?_, ?_, ?_, ?_, ?_, ?_⟩
      · intro e he i k hk
        rcases List.mem_append.mp he with hm | hm
        · exact Or.inl (hlt e hm i k hk)
        · simp at hm
          subst hm
          exact absurd hk (by simp [keyOf_makeContentChunk])
      · intro hst; simp at hst
      · exact headerBeforeArgs_append hHBA
          (fun i hk => absurd hk (by simp [keyOf_makeContentChunk]))
      · exact idxMono_append hMono
          (fun i k hk => absurd hk (by simp [keyOf_makeContentChunk]))
      · exact noCallAfterTrailing_append hNCAT (Or.inr (keyOf_makeContentChunk _ _))
      · intro hst; simp at hst
      · intro _; rfl
  | case6 t out h1 endIdx idx hE hI hlt2 trailing htr =>
      intro P hinv
      obtain ⟨hI1, hI2, hHBA, hMono, hNCAT, hI6, hI7⟩ := hinv
      rw [loop_inSection_end h1 hE (by intro i hi; rw [hI] at hi; cases hi; exact hlt2)]
      rw [if_pos (not_not.mp htr)]
      have hlt := i1_lt hI1 (by rw [h1]; decide)
      refine ⟨?_, ?_, hHBA, hMono, hNCAT, ?_, ?_⟩
      · intro e he i k hk
        exact Or.inl (hlt e he i k hk)
      · intro hst; simp at hst
      · intro hst; simp at hst
      · intro _; rfl
  | case7 t out h1 endIdx idx hE hI hnlt ih =>
      intro P hinv
      obtain ⟨hI1, hI2, hHBA, hMono, hNCAT, hI6, hI7⟩ := hinv
      rw [loop_inSection_call h1 hI (by intro e he; rw [hE] at he; cases he; exact hnlt)]
      have hlt := i1_lt hI1 (by rw [h1]; decide)
      refine ih P ⟨?_, ?_, hHBA, hMono, hNCAT, ?_, ?_⟩
      · intro e he i k hk
        exact Or.inl (hlt e he i k hk)
      · intro hst; simp at hst
      · intro hst; simp at hst
      · intro hp
        have h' := hI7 hp
        rw [h1] at h'
        exact absurd h' (by decide)
  | case8 t out h1 hE hI =>
      intro P hinv
      rw [loop_inSection_wait h1 hE hI]
      exact hinv
  | case9 t out h1 idx hE hI ih =>
      intro P hinv
      obtain ⟨hI1, hI2, hHBA, hMono, hNCAT, hI6, hI7⟩ := hinv
      rw [loop_inSection_call h1 hI (by intro e he; rw [hE] at he; cases he)]
      have hlt := i1_lt hI1 (by rw [h1]; decide)
      refine ih P ⟨?_, ?_, hHBA, hMono, hNCAT, ?_, ?_⟩
      · intro e he i k hk
        exact Or.inl (hlt e he i k hk)
      · intro hst; simp at hst
      · intro hst; simp at hst
      · intro hp
        have h' := hI7 hp
        rw [h1] at h'
        exact absurd h' (by decide)
  | case10 t out h1 h2 =>
      intro P hinv
      rw [loop_readingID_none h1 h2]
      exact hinv
  | case11 t out h1 idx h2 rawID cid name ih =>
      intro P hinv
      obtain ⟨hI1, hI2, hHBA, hMono, hNCAT, hI6, hI7⟩ := hinv
      rw [loop_readingID_some h1 h2]
      unfold_let cid name rawID at ih
      have hlt := i1_lt hI1 (by rw [h1]; decide)
      have hkx := keyOf_makeToolCallHeader base
        ((parseToolCallID (trimSpace (t.buf.take idx)) t.toolIndex ms).1) t.toolIndex
        (parseFunctionName (trimSpace (t.buf.take idx)))
      have hnopat : ¬ Pattern (P ++ out) := fun hp => by
        have h' := hI7 hp; rw [h1] at h'; exact absurd h' (by decide)
      refine ih P ?_
      rw [← List.append_assoc]
      refine ⟨?_, ?_, ?_, ?_, ?_, ?_, ?_⟩
      · intro e he i k hk
        rcases List.mem_append.mp he with hm | hm
        · exact Or.inl (hlt e hm i k hk)
        · simp at hm
          subst hm
          rw [hkx] at hk
          injection hk with hk'
          injection hk' with hki hkk
          exact Or.inr ⟨hki.symm, rfl⟩
      · intro _
        refine ⟨makeToolCallHeader base
          ((parseToolCallID (trimSpace (t.buf.take idx)) t.toolIndex ms).1) t.toolIndex
          (parseFunctionName (trimSpace (t.buf.take idx))), by simp, hkx⟩
      · refine headerBeforeArgs_append hHBA (fun i hk => ?_)
        rw [hkx] at hk
        injection hk with hk'
        injection hk' with hki hkk
        cases hkk
      · refine idxMono_append hMono (fun i k hk e he i' k' hk' => ?_)
        rw [hkx] at hk
        injection hk with h''
        injection h'' with hki hkk
        subst hki
        rcases hI1 e he i' k' hk' with h' | ⟨h', _⟩
        · omega
        · omega
      · exact noCallAfterTrailing_append hNCAT (Or.inl hnopat)
      · intro hst; simp at hst
      · intro hp
        rcases pattern_append_cases hp with hp | ⟨hct, _⟩
        · exact absurd hp hnopat
        · exact absurd hct.1 (by simp [hkx])
  | case12 t out h1 h2 hb =>
      intro P hinv
      obtain ⟨hI1, hI2, hHBA, hMono, hNCAT, hI6, hI7⟩ := hinv
      rw [loop_readingArgs_none h1 h2, if_neg hb]
      have hkx := keyOf_makeArgsDelta base t.toolIndex t.buf
      have hnopat : ¬ Pattern (P ++ out) := fun hp => by
        have h' := hI7 hp; rw [h1] at h'; exact absurd h' (by decide)
      rw [← List.append_assoc]
      refine ⟨?_, ?_, ?_, ?_, ?_, ?_, ?_⟩
      · intro e he i k hk
        rcases List.mem_append.mp he with hm | hm
        · exact hI1 e hm i k hk
        · simp at hm
          subst hm
          rw [hkx] at hk
          injection hk with hk'
          injection hk' with hki hkk
          exact Or.inr ⟨hki.symm, h1⟩
      · intro _
        obtain ⟨h', hm, hh⟩ := hI2 h1
        exact ⟨h', List.mem_append.mpr (Or.inl hm), hh⟩
      · refine headerBeforeArgs_append hHBA (fun i hk => ?_)
        rw [hkx] at hk
        injection hk with hk'
        injection hk' with hki hkk
        subst hki
        exact hI2 h1
      · refine idxMono_append hMono (fun i k hk e he i' k' hk' => ?_)
        rw [hkx] at hk
        injection hk with h''
        injection h'' with hki hkk
        subst hki
        rcases hI1 e he i' k' hk' with h' | ⟨h', _⟩
        · omega
        · omega
      · exact noCallAfterTrailing_append hNCAT (Or.inl hnopat)
      · intro hst; exact absurd (h1.symm.trans hst) (by decide)
      · intro hp
        rcases pattern_append_cases hp with hp | ⟨hct, _⟩
        · exact absurd hp hnopat
        · exact absurd hct.1 (by simp [hkx])
  | case13 t out h1 h2 hb =>
      intro P hinv
      rw [loop_readingArgs_none h1 h2, if_pos (not_not.mp hb)]
      exact hinv
  | case14 t out h1 idx h2 args out1 ih =>
      intro P hinv
      obtain ⟨hI1, hI2, hHBA, hMono, hNCAT, hI6, hI7⟩ := hinv
      rw [loop_readingArgs_some h1 h2]
      unfold_let out1 args at ih
      have hnopat : ¬ Pattern (P ++ out) := fun hp => by
        have h' := hI7 hp; rw [h1] at h'; exact absurd h' (by decide)
      by_cases hz : t.buf.take idx = ([] : Str)
      · rw [if_pos hz]
        rw [dif_neg (not_not_intro hz)] at ih
        refine ih P ⟨?_, ?_, hHBA, hMono, hNCAT, ?_, ?_⟩
        · intro e he i k hk
          rcases hI1 e he i k hk with h' | ⟨h', _⟩
          · exact Or.inl (by simp; omega)
          · exact Or.inl (by simp; omega)
        · intro hst; simp at hst
        · intro hst; simp at hst
        · intro hp; exact absurd hp hnopat
      · rw [if_neg hz]
        rw [dif_pos hz] at ih
        have hkx := keyOf_makeArgsDelta base t.toolIndex (t.buf.take idx)
        refine ih P ?_
        rw [← List.append_assoc]
        refine ⟨?_, ?_, ?_, ?_, ?_, ?_, ?_⟩
        · intro e he i k hk
          rcases List.mem_append.mp he with hm | hm
          · rcases hI1 e hm i k hk with h' | ⟨h', _⟩
            · exact Or.inl (by simp; omega)
            · exact Or.inl (by simp; omega)
          · simp at hm
            subst hm
            rw [hkx] at hk
            injection hk with hk'
            injection hk' with hki hkk
            exact Or.inl (by simp; omega)
        · intro hst; simp at hst
        · refine headerBeforeArgs_append hHBA (fun i hk => ?_)
          rw [hkx] at hk
          injection hk with hk'
          injection hk' with hki hkk
          subst hki
          exact hI2 h1
        · refine idxMono_append hMono (fun i k hk e he i' k' hk' => ?_)
          rw [hkx] at hk
          injection hk with h''
          injection h'' with hki hkk
          subst hki
          rcases hI1 e he i' k' hk' with h' | ⟨h', _⟩
          · omega
          · omega
        · exact noCallAfterTrailing_append hNCAT (Or.inl hnopat)
        · intro hst; simp at hst
        · intro hp
          rcases pattern_append_cases hp with hp | ⟨hct, _⟩
          · exact absurd hp hnopat
          · exact absurd hct.1 (by simp [hkx])
  | case15 t out h1 =>
      intro P hinv
      rw [loop_trailing h1]
      exact hinv

/-- Promotion does not change the tool-call classification of a chunk. -/
theorem keyOf_promoteFinish (c : Chunk) : keyOf (promoteFinish c) = keyOf c := by
  unfold keyOf
  rw [chunkToolCalls_promoteFinish]

/-- Appending a passthrough chunk (not a tool-call emission, and either not
a content chunk or emitted in the idle state) preserves the run
invariant. -/
theorem runInv_append_passthrough {t : TState} {E : List Chunk} {x : Chunk}
    (hinv : RunInv t E) (hkx : keyOf x = none)
    (hsafe : ¬ isContentChunk x ∨ t.state = ParserState.idle) :
    RunInv t (E ++ [x]) := by
  obtain ⟨hI1, hI2, hHBA, hMono, hNCAT, hI6, hI7⟩ := hinv
  refine ⟨?_, ?_, ?_, ?_, ?_, ?_, ?_⟩
  · intro e he i k hk
    rcases List.mem_append.mp he with hm | hm
    · exact hI1 e hm i k hk
    · simp at hm; subst hm; rw [hkx] at hk; cases hk
  · intro hst
    obtain ⟨h', hm, hh⟩ := hI2 hst
    exact ⟨h', List.mem_append.mpr (Or.inl hm), hh⟩
  · exact headerBeforeArgs_append hHBA (fun i hk => by rw [hkx] at hk; cases hk)
  · exact idxMono_append hMono (fun i k hk => by rw [hkx] at hk; cases hk)
  · exact noCallAfterTrailing_append hNCAT (Or.inr hkx)
  · intro hst e he
    rcases List.mem_append.mp he with hm | hm
    · exact hI6 hst e hm
    · simp at hm; subst hm; exact hkx
  · intro hp
    rcases pattern_append_cases hp with hp | ⟨hct, h', hm, hkey⟩
    · exact hI7 hp
    · rcases hsafe with hnc | hidle
      · exact absurd hct hnc
      · rw [hI6 hidle h' hm] at hkey; simp at hkey

/-- One feed preserves the run invariant, provided the upstream chunk does
not itself carry pre-structured tool calls. -/
theorem processEvent_runInv (t : TState) (ms : Nat) (raw : Chunk)
    (htc : ∀ ch ∈ raw.choices, ch.delta.toolCalls = [])
    (E : List Chunk) (hinv : RunInv t E) :
    RunInv (processEvent t ms raw).1 (E ++ (processEvent t ms raw).2) := by
  have hkey : keyOf (promoteFinish raw) = none :=
    (keyOf_promoteFinish raw).trans (keyOf_of_no_toolcalls htc)
  by_cases hc : (promoteFinish raw).choices = []
  · rw [processEvent_noChoices hc]
    refine runInv_append_passthrough hinv hkey (Or.inl ?_)
    intro hcc
    exact hcc.2 (by simp [contentOf, hc, defaultChoice])
  · by_cases hfast : containsAnyToken (extractReasoning raw) = false ∧
        t.state = ParserState.idle
    · rw [show processEvent t ms raw = (t, [promoteFinish raw]) from ?_]
      · exact runInv_append_passthrough hinv hkey (Or.inr hfast.2)
      · exact processEvent_passthrough hfast.2 hfast.1
    · rw [processEvent_reason hc hfast]
      unfold processReasoning
      have := loop_runInv ms (promoteFinish raw)
        { t with buf := t.buf ++ extractReasoning raw } [] E (by simpa using hinv)
      simpa using this

/-- A whole run preserves the run invariant. -/
theorem feedAll_runInv (ms : Nat) (cs : List Chunk)
    (htc : ∀ c ∈ cs, ∀ ch ∈ c.choices, ch.delta.toolCalls = []) :
    ∀ t E, RunInv t E → RunInv (feedAll t ms cs).1 (E ++ (feedAll t ms cs).2) := by
  induction cs with
  | nil => intro t E h; simpa [feedAll] using h
  | cons c cs ih =>
      intro t E h
      have h1 := processEvent_runInv t ms c (htc c (by simp)) E h
      have h2 := ih (fun c hm => htc c (by simp [hm])) (processEvent t ms c).1 _ h1
      simp only [feedAll]
      rw [← List.append_assoc]
      exact h2

/-- The run invariant holds of a fresh transformer and empty emissions. -/
theorem runInv_init : RunInv initTState [] := by
  refine ⟨?_, ?_, ?_, ?_, ?_, ?_, ?_⟩
  · intro e he; simp at he
  · intro hst; simp [initTState] at hst
  · intro l₁ e l₂ i heq; cases l₁ <;> simp at heq
  · intro l₁ e l₂ e' i k i' k' heq; cases l₁ <;> simp at heq
  · intro l₁ ct l₂ heq; cases l₁ <;> simp at heq
  · intro _ e he; simp at he
  · intro hp
    obtain ⟨l₁, ct, l₂, heq, _, _⟩ := hp
    cases l₁ <;> simp at heq

/-- Searching for a single character finds the first occurrence. -/
theorem strIndex_char_split {a b : Str} {p : Char} (ha : p ∉ a) :
    strIndex (a ++ p :: b) [p] = some a.length := by
  induction a with
  | nil => simp [strIndex, List.isPrefixOf]
  | cons x a' ih =>
      have hpx : p ≠ x := fun h => ha (by simp [h])
      have ha' : p ∉ a' := fun h => ha (by simp [h])
      rw [List.cons_append]
      unfold strIndex
      rw [if_neg (by simp [List.isPrefixOf, hpx])]
      rw [ih ha']
      simp

/-- A character absent from a string is not found. -/
theorem strIndex_char_none {s : Str} {p : Char} (h : p ∉ s) :
    strIndex s [p] = none := by
  induction s with
  | nil => simp [strIndex]
  | cons x s' ih =>
      have hpx : p ≠ x := fun he => h (by simp [he])
      have hs' : p ∉ s' := fun he => h (by simp [he])
      unfold strIndex
      rw [if_neg (by simp [List.isPrefixOf, hpx])]
      rw [ih hs']
      rfl

/-- A character absent from a string has no last occurrence. -/
theorem strLastIndex_char_none {s : Str} {p : Char} (h : p ∉ s) :
    strLastIndex s [p] = none := by
  induction s with
  | nil => simp [strLastIndex]
  | cons x s' ih =>
      have hpx : p ≠ x := fun he => h (by simp [he])
      have hs' : p ∉ s' := fun he => h (by simp [he])
      unfold strLastIndex
      rw [ih hs']
      rw [if_neg (by simp [List.isPrefixOf, hpx])]

/-- Searching backwards for a single character finds the last
occurrence. -/
theorem strLastIndex_char_split {c d : Str} {p : Char} (hd : p ∉ d) :
    strLastIndex (c ++ p :: d) [p] = some c.length := by
  induction c with
  | nil =>
      rw [List.nil_append]
      simp [strLastIndex, strLastIndex_char_none hd, List.isPrefixOf]
  | cons x c' ih =>
      rw [List.cons_append]
      simp [strLastIndex, ih]

/-- Choices of a rewritten content chunk. -/
theorem choices_makeContentChunk (base : Chunk) (s : Str) :
    (makeContentChunk base s).choices =
      [{ index := (base.choices.headD defaultChoice).index,
         delta := { content := s },
         finishReason := (base.choices.headD defaultChoice).finishReason }] := rfl

/-- Choices of a rewritten header chunk. -/
theorem choices_makeToolCallHeader (base : Chunk) (cid : Str) (i : Nat) (nm : Str) :
    (makeToolCallHeader base cid i nm).choices =
      [{ index := (base.choices.headD defaultChoice).index,
         delta := { toolCalls := [{ id := cid, type := "function".data, index := i,
                                    function := { name := nm, arguments := [] } }] },
         finishReason := (base.choices.headD defaultChoice).finishReason }] := rfl

/-- Choices of a rewritten argument-delta chunk. -/
theorem choices_makeArgsDelta (base : Chunk) (i : Nat) (s : Str) :
    (makeArgsDelta base i s).choices =
      [{ index := (base.choices.headD defaultChoice).index,
         delta := { toolCalls := [{ id := [], type := [], index := i,
                                    function := { name := [], arguments := s } }] },
         finishReason := (base.choices.headD defaultChoice).finishReason }] := rfl

/-- The canonical reasoning chunk extracts its own fragment. -/
theorem extractReasoning_mkRC (r : Str) : extractReasoning (mkRC r) = r := by
  unfold mkRC extractReasoning
  by_cases hr : r = ([] : Str) <;> simp [hr]

/-- The canonical reasoning chunk carries no misplaced finish reason. -/
theorem promoteFinish_mkRC (r : Str) : promoteFinish (mkRC r) = mkRC r := rfl

/-- Claim C8: a trimmed identifier beginning with `call_` is used verbatim
as the tool-call id, any other identifier yields the synthesized id
`call_<toolIndex>_<millis>`; the function name is the part of the trimmed
identifier after the first `.` and before the last `:`, so
`functions.bash:15` yields `bash`, `my.pkg.task:3` yields `pkg.task`, and
`do_it` yields `do_it`. -/
theorem tool_call_id_and_function_name (raw a b c d : Str) (i ms : Nat) :
    (("call_".data).isPrefixOf (trimSpace raw) = true →
        (parseToolCallID raw i ms).1 = trimSpace raw) ∧
    (¬ ("call_".data).isPrefixOf (trimSpace raw) = true →
        (parseToolCallID raw i ms).1 =
          "call_".data ++ (Nat.repr i).data ++ "_".data ++ (Nat.repr ms).data) ∧
    (trimSpace raw = a ++ '.' :: b → ('.' : Char) ∉ a →
        b = c ++ ':' :: d → (':' : Char) ∉ d →
        parseFunctionName raw = c) ∧
    (('.' : Char) ∉ trimSpace raw → (':' : Char) ∉ trimSpace raw →
        parseFunctionName raw = trimSpace raw) ∧
    parseFunctionName "functions.bash:15".data = "bash".data ∧
    parseFunctionName "my.pkg.task:3".data = "pkg.task".data ∧
    parseFunctionName "do_it".data = "do_it".data := by
  refine ⟨?_, ?_, ?_, ?_, by decide, by decide, by decide⟩
  · intro h
    simp [parseToolCallID, h]
  · intro h
    simp [parseToolCallID, h]
  · intro hab ha hcd hd
    unfold parseFunctionName
    rw [show (".".data : Str) = ['.'] from rfl, show (":".data : Str) = [':'] from rfl]
    rw [hab]
    dsimp only
    rw [strIndex_char_split ha]
    have hdrop : (a ++ '.' :: b).drop (a.length + 1) = b := by
      rw [show a ++ '.' :: b = (a ++ ['.']) ++ b by simp]
      rw [show a.length + 1 = (a ++ ['.']).length by simp]
      exact List.drop_left _ _
    simp only [hdrop]
    rw [hcd, strLastIndex_char_split hd]
    simp only
    exact List.take_left _ _
  · intro hdot hcolon
    unfold parseFunctionName
    rw [show (".".data : Str) = ['.'] from rfl, show (":".data : Str) = [':'] from rfl]
    dsimp only
    rw [strIndex_char_none hdot, strLastIndex_char_none hcolon]

/-- Witness for C8 at the identifier `functions.bash:15` with index 0 and
millis 0. -/
theorem tool_call_id_and_function_name_witness :
    parseFunctionName "functions.bash:15".data = "bash".data :=
  (tool_call_id_and_function_name "functions.bash:15".data "functions".data
    "bash:15".data "bash".data "15".data 0 0).2.2.1
    (by decide) (by decide) (by decide) (by decide)

/-- Claim C10: every chunk emitted for an upstream chunk with choices
carries a first choice whose finish reason equals the base chunk's finish
reason after delta-to-choice promotion; in particular a chunk carrying both
reasoning text and a finish reason is rewritten into content or tool-call
chunks that themselves carry that finish reason. -/
theorem emissions_carry_promoted_finish_reason (t : TState) (ms : Nat) (raw : Chunk)
    (hne : raw.choices ≠ []) :
    ∀ e ∈ (processEvent t ms raw).2,
      e.choices ≠ [] ∧
      (e.choices.headD defaultChoice).finishReason =
        ((promoteFinish raw).choices.headD defaultChoice).finishReason := by
  intro e he
  by_cases hc : (promoteFinish raw).choices = []
  · exact absurd ((promoteFinish_choices_nil_iff raw).mp hc) hne
  by_cases hfast : containsAnyToken (extractReasoning raw) = false ∧
      t.state = ParserState.idle
  · rw [processEvent_passthrough hfast.2 hfast.1] at he
    simp at he
    subst he
    exact ⟨hc, rfl⟩
  · rw [processEvent_reason hc hfast] at he
    unfold processReasoning at he
    obtain ⟨nw, heq, hprop⟩ := loop_out_decomp ms (promoteFinish raw)
      { t with buf := t.buf ++ extractReasoning raw } []
    rw [heq] at he
    simp at he
    rcases hprop e he with ⟨s, rfl⟩ | ⟨cid, i, nm, _, rfl⟩ | ⟨i, s, _, rfl⟩
    · exact ⟨by simp [choices_makeContentChunk], by simp [choices_makeContentChunk]⟩
    · exact ⟨by simp [choices_makeToolCallHeader], by simp [choices_makeToolCallHeader]⟩
    · exact ⟨by simp [choices_makeArgsDelta], by simp [choices_makeArgsDelta]⟩

/-- Claim C1 (amended): when `Feed` runs in state `ReadingArgs` and the
buffer holds no complete `C_END`, the rewriter emits the ENTIRE buffer
(old bytes plus the new reasoning text) as one argument delta and clears
`buf`; no bytes are held back at a `<`.  (The claimed safe flush — emit
only up to the earliest `<` and retain the rest — is not what the code
does; see the counterexample.) -/
theorem readingArgs_flushes_whole_buffer (t : TState) (ms : Nat) (raw : Chunk)
    (h1 : t.state = ParserState.readingArgs)
    (hne : (promoteFinish raw).choices ≠ [])
    (hnoend : strIndex (t.buf ++ extractReasoning raw) tokCallEnd = none) :
    processEvent t ms raw =
      ({ t with buf := [] },
       if t.buf ++ extractReasoning raw = [] then []
       else [makeArgsDelta (promoteFinish raw) t.toolIndex
               (t.buf ++ extractReasoning raw)]) := by
  rw [processEvent_reason hne (by simp [h1])]
  unfold processReasoning
  rw [loop_readingArgs_none (by simp [h1]) (by simpa using hnoend)]
  obtain ⟨st, buf, ti, cid⟩ := t
  simp only at h1 hnoend ⊢
  subst h1
  by_cases hb : buf ++ extractReasoning raw = ([] : Str)
  · rw [if_pos (by simpa using hb), if_pos hb]
    simp [hb]
  · rw [if_neg (by simpa using hb), if_neg hb]
    simp

/-- Witness for C1 (amended) at a concrete mid-call state and fragment. -/
theorem readingArgs_flushes_whole_buffer_witness :
    processEvent ⟨ParserState.readingArgs, "ab".data, 3, "id".data⟩ 0 (mkRC "cd".data) =
      ({ (⟨ParserState.readingArgs, "ab".data, 3, "id".data⟩ : TState) with buf := [] },
       if "ab".data ++ extractReasoning (mkRC "cd".data) = [] then []
       else [makeArgsDelta (promoteFinish (mkRC "cd".data)) 3
               ("ab".data ++ extractReasoning (mkRC "cd".data))]) :=
  readingArgs_flushes_whole_buffer ⟨ParserState.readingArgs, "ab".data, 3, "id".data⟩ 0
    (mkRC "cd".data) rfl (by decide) (by decide)

/-- Counterexample to claim C1 as stated: feeding one chunk whose call is
never closed makes the rewriter emit an argument delta containing the full
`S_END` delimiter string, and `buf` is cleared rather than retaining the
bytes from the earliest `<` onward. -/
theorem delimiter_bytes_flushed_into_arguments :
    argsConcat 0 (processEvent initTState 0
        (mkRC (tokSectionBegin ++ tokCallBegin ++ "f".data ++ tokArgBegin ++
          "x".data ++ tokSectionEnd))).2 = "x".data ++ tokSectionEnd ∧
    (processEvent initTState 0
        (mkRC (tokSectionBegin ++ tokCallBegin ++ "f".data ++ tokArgBegin ++
          "x".data ++ tokSectionEnd))).1.buf = [] ∧
    (strIndex ("x".data ++ tokSectionEnd) tokSectionEnd).isSome = true := by
  rw [processEvent_evalF]
  exact ⟨by decide, by decide, by decide⟩

/-- Claim C2 (amended): chunk-boundary independence holds for streams that
contain no `<|tool_call` substring: every partition is passed through
verbatim, chunk by chunk, and the concatenated reasoning text of the
emissions is the same for any two partitions of the same stream.  (For
streams containing delimiters it fails; see the counterexample.) -/
theorem partition_independence_token_free (ms : Nat) (rs1 rs2 : List Str)
    (hsame : rs1.flatten = rs2.flatten)
    (hnotok : ¬ tokCallStem <:+: rs1.flatten) :
    (feedAll initTState ms (rs1.map mkRC)).2 = rs1.map mkRC ∧
    (feedAll initTState ms (rs2.map mkRC)).2 = rs2.map mkRC ∧
    reasoningConcat (feedAll initTState ms (rs1.map mkRC)).2 =
      reasoningConcat (feedAll initTState ms (rs2.map mkRC)).2 := by
  have hfrag : ∀ rs : List Str, rs.flatten = rs1.flatten →
      ∀ c ∈ rs.map mkRC, containsAnyToken (extractReasoning c) = false := by
    intro rs hflat c hc
    simp at hc
    obtain ⟨r, hr, rfl⟩ := hc
    rw [extractReasoning_mkRC]
    exact containsAnyToken_frag (hflat ▸ hnotok) hr
  have hmapid : ∀ rs : List Str, (rs.map mkRC).map promoteFinish = rs.map mkRC := by
    intro rs
    rw [List.map_map]
    rfl
  have e1 := @feedAll_idle_passthrough ms (rs1.map mkRC) initTState rfl
    (hfrag rs1 rfl)
  have e2 := @feedAll_idle_passthrough ms (rs2.map mkRC) initTState rfl
    (hfrag rs2 hsame.symm)
  have hrc : ∀ rs : List Str, reasoningConcat (rs.map mkRC) = rs.flatten := by
    intro rs
    unfold reasoningConcat
    rw [List.map_map]
    congr 1
    exact (List.map_congr_left (fun r _ => extractReasoning_mkRC r)).trans (List.map_id rs)
  refine ⟨?_, ?_, ?_⟩
  · rw [e1, hmapid]
  · rw [e2, hmapid]
  · rw [e1, hmapid, e2, hmapid, hrc, hrc, hsame]

/-- Witness for C2 (amended) at two partitions of the token-free stream
`abcd`. -/
theorem partition_independence_token_free_witness :
    (feedAll initTState 0 (["ab".data, "cd".data].map mkRC)).2 =
      ["ab".data, "cd".data].map mkRC ∧
    (feedAll initTState 0 (["abc".data, "d".data].map mkRC)).2 =
      ["abc".data, "d".data].map mkRC ∧
    reasoningConcat (feedAll initTState 0 (["ab".data, "cd".data].map mkRC)).2 =
      reasoningConcat (feedAll initTState 0 (["abc".data, "d".data].map mkRC)).2 :=
  partition_independence_token_free 0 ["ab".data, "cd".data] ["abc".data, "d".data]
    (by decide) (strIndex_none_iff.mp (by decide))

/-- Counterexample to claim C2 as stated: the same upstream stream split as
one fragment versus split inside the first delimiter (`<|tool` + rest)
yields different payloads — the first partition produces two tool-call
chunks, the second produces none at all. -/
theorem partition_dependent_outputs :
    "<|tool".data ++ sectionOneCall.drop 6 = sectionOneCall ∧
    (feedAll initTState 0 [mkRC sectionOneCall]).2.countP
      (fun e => (keyOf e).isSome) = 2 ∧
    (feedAll initTState 0 [mkRC "<|tool".data,
      mkRC (sectionOneCall.drop 6)]).2.countP (fun e => (keyOf e).isSome) = 0 := by
  refine ⟨by decide, ?_, ?_⟩ <;> (rw [feedAll_evalF]; decide)

/-- Claim C3 (amended): for a tool call whose matching `C_END` lies wholly
within a single upstream fragment (first in-fragment occurrence at `m`,
first occurrence in the concatenated remaining stream at `M`), the
concatenation of the `arguments` fields of the header chunk (always empty)
and of all emitted argument deltas for that call equals exactly the bytes
of the concatenated stream strictly before that `C_END`.  (When `C_END` is
split across fragments this fails; see the counterexample.) -/
theorem argument_byte_conservation_unsplit_end
    (ms i M m : Nat) (cid0 hcid hnm : Str) (hb : Chunk) (pre : List Chunk) (last : Chunk)
    (hne : ∀ c ∈ pre ++ [last], (promoteFinish c).choices ≠ [])
    (hnoend : ∀ c ∈ pre, strIndex (extractReasoning c) tokCallEnd = none)
    (hend : strIndex (extractReasoning last) tokCallEnd = some m)
    (hM : M = (reasoningConcat pre).length + m)
    (hfirst : strIndex (reasoningConcat (pre ++ [last])) tokCallEnd = some M) :
    argsFor i (makeToolCallHeader hb hcid i hnm) = [] ∧
    argsConcat i (feedAll ⟨ParserState.readingArgs, [], i, cid0⟩ ms (pre ++ [last])).2 =
      (reasoningConcat (pre ++ [last])).take M := by
  refine ⟨argsFor_makeToolCallHeader _ _ _ _ _, ?_⟩
  rw [feedAll_append]
  obtain ⟨hst, hargs⟩ := @feedAll_readingArgs_noEnd ms pre
    ⟨ParserState.readingArgs, [], i, cid0⟩ rfl rfl
    (fun c hc => hne c (by simp [hc])) hnoend
  rw [argsConcat_append, hargs i, if_pos rfl, hst]
  have h2 : (feedAll (⟨ParserState.readingArgs, [], i, cid0⟩ : TState) ms [last]).2 =
      (processEvent ⟨ParserState.readingArgs, [], i, cid0⟩ ms last).2 := by
    simp [feedAll]
  rw [h2]
  rw [@processEvent_readingArgs_end ⟨ParserState.readingArgs, [], i, cid0⟩ ms last m
    rfl rfl (hne last (by simp)) hend]
  rw [reasoningConcat_append, hM]
  have h3 : reasoningConcat [last] = extractReasoning last := by
    simp [reasoningConcat]
  rw [h3]
  exact (List.take_append m).symm

/-- Witness for C3 (amended): the span `abcd` is delivered as `ab` then
`cd<|tool_call_end|>x`, with the closing delimiter inside one fragment. -/
theorem argument_byte_conservation_unsplit_end_witness :
    argsFor 0 (makeToolCallHeader {} "call_1".data 0 "f".data) = [] ∧
    argsConcat 0 (feedAll ⟨ParserState.readingArgs, [], 0, "call_1".data⟩ 0
        ([mkRC "ab".data] ++ [mkRC ("cd".data ++ tokCallEnd ++ "x".data)])).2 =
      (reasoningConcat ([mkRC "ab".data] ++
        [mkRC ("cd".data ++ tokCallEnd ++ "x".data)])).take 4 :=
  argument_byte_conservation_unsplit_end 0 0 4 2 "call_1".data "call_1".data "f".data
    {} [mkRC "ab".data] (mkRC ("cd".data ++ tokCallEnd ++ "x".data))
    (by decide) (by decide) (by decide) (by decide) (by decide)

/-- Counterexample to claim C3 as stated: when the matching `C_END` is
split across two fragments (`{}<|tool_` then `call_end|>`), the span `{}`
is completely delivered, yet the concatenated argument bytes of the call
are `{}<|tool_call_end|>`, not `{}`. -/
theorem split_call_end_breaks_conservation :
    argsConcat 0 (feedAll initTState 0
        [mkRC (tokSectionBegin ++ tokCallBegin ++ "f".data ++ tokArgBegin ++
           "\x7b\x7d<|tool_".data),
         mkRC "call_end|>".data]).2 = "\x7b\x7d<|tool_call_end|>".data ∧
    "\x7b\x7d<|tool_call_end|>".data ≠ "\x7b\x7d".data := by
  refine ⟨?_, by decide⟩
  rw [feedAll_evalF]
  decide

/-- Claim C4: what the code actually does at the failing input.  After a
header and a partial argument put the rewriter in `ReadingArgs`, feeding a
chunk that carries only `finish_reason:"stop"` emits NOTHING: the finish
chunk is dropped, no buffer drain happens and no terminal chunk with the
finish reason is produced (the claim requires a terminal finish chunk). -/
theorem finish_midcall_dropped :
    (feedAll initTState 0 [mkRC (tokSectionBegin ++ tokCallBegin ++ "bash:1".data ++
        tokArgBegin ++ "\x7b\"partial\"".data)]).1.state = ParserState.readingArgs ∧
    (processEvent (feedAll initTState 0 [mkRC (tokSectionBegin ++ tokCallBegin ++
        "bash:1".data ++ tokArgBegin ++ "\x7b\"partial\"".data)]).1 0
      finishStopChunk).2 = [] := by
  simp only [feedAll_evalF, processEvent_evalF]
  exact ⟨by decide, by decide⟩

/-- Claim C5: what the code actually does at the failing input.  After a
complete section puts the rewriter in `Trailing`, feeding a further chunk
with non-empty reasoning text emits NOTHING: the text is appended to `buf`
and swallowed, never emitted as content (the claim requires a content
chunk). -/
theorem trailing_text_swallowed :
    (feedAll initTState 0 [mkRC sectionOneCall]).1.state = ParserState.trailing ∧
    (processEvent (feedAll initTState 0 [mkRC sectionOneCall]).1 0
      (mkRC " more".data)).2 = [] := by
  simp only [feedAll_evalF, processEvent_evalF]
  exact ⟨by decide, by decide⟩

/-- Claim C6 (amended): for a stream whose reasoning text never contains
`<|tool_call` (hence no delimiter), every chunk passes through verbatim
(after finish-reason promotion), so concatenating the `reasoning` fields of
the emitted chunks reproduces the upstream reasoning bytes, and the
`content` fields are likewise preserved — but the upstream reasoning bytes
appear in the `reasoning` fields, not in the `content` fields as the claim
states (see the counterexample). -/
theorem token_free_stream_conservation (ms : Nat) (cs : List Chunk)
    (hno : ∀ c ∈ cs, containsAnyToken (extractReasoning c) = false) :
    (feedAll initTState ms cs).2 = cs.map promoteFinish ∧
    contentConcat (feedAll initTState ms cs).2 = contentConcat cs ∧
    reasoningConcat (feedAll initTState ms cs).2 = reasoningConcat cs := by
  have h := @feedAll_idle_passthrough ms cs initTState rfl hno
  refine ⟨by rw [h], ?_, ?_⟩
  · rw [h]
    unfold contentConcat
    rw [List.map_map]
    congr 1
    exact List.map_congr_left (fun c _ => contentOf_promoteFinish c)
  · rw [h]
    unfold reasoningConcat
    rw [List.map_map]
    congr 1
    exact List.map_congr_left (fun c _ => extractReasoning_promoteFinish c)

/-- Witness for C6 (amended) at a concrete two-chunk token-free stream. -/
theorem token_free_stream_conservation_witness :
    (feedAll initTState 0 [mkRC "Hel".data, mkRC "lo".data]).2 =
      [mkRC "Hel".data, mkRC "lo".data].map promoteFinish ∧
    contentConcat (feedAll initTState 0 [mkRC "Hel".data, mkRC "lo".data]).2 =
      contentConcat [mkRC "Hel".data, mkRC "lo".data] ∧
    reasoningConcat (feedAll initTState 0 [mkRC "Hel".data, mkRC "lo".data]).2 =
      reasoningConcat [mkRC "Hel".data, mkRC "lo".data] :=
  token_free_stream_conservation 0 [mkRC "Hel".data, mkRC "lo".data] (by decide)

/-- Counterexample to claim C6 as stated: a delimiter-free stream carrying
`Hello` in the reasoning field is passed through with empty `content`
fields, so the concatenated content `[]` does not equal the concatenated
upstream reasoning `Hello`. -/
theorem content_fields_empty_for_reasoning_passthrough :
    contentConcat (feedAll initTState 0 [mkRC "Hello".data]).2 = [] ∧
    reasoningConcat [mkRC "Hello".data] = "Hello".data ∧
    contentConcat (feedAll initTState 0 [mkRC "Hello".data]).2 ≠
      reasoningConcat [mkRC "Hello".data] := by
  rw [feedAll_evalF]
  exact ⟨by decide, by decide, by decide⟩

/-- Claim C7 (amended): an upstream chunk arriving in state Idle whose
reasoning contains no `<|tool_call` substring and whose delta carries no
misplaced `finish_reason` is emitted as exactly one downstream chunk equal
to the upstream chunk, delta unchanged.  (When the delta carries a
misplaced finish reason the emitted delta differs by its promotion; see the
counterexample.) -/
theorem idle_passthrough_fidelity (t : TState) (ms : Nat) (c : Chunk)
    (h1 : t.state = ParserState.idle)
    (h2 : containsAnyToken (extractReasoning c) = false)
    (h3 : promoteFinish c = c) :
    processEvent t ms c = (t, [c]) := by
  rw [processEvent_passthrough h1 h2, h3]

/-- Witness for C7 (amended) at a concrete token-free chunk. -/
theorem idle_passthrough_fidelity_witness :
    processEvent initTState 0 (mkRC "hello".data) = (initTState, [mkRC "hello".data]) :=
  idle_passthrough_fidelity initTState 0 (mkRC "hello".data) rfl (by decide) rfl

/-- Counterexample to claim C7 as stated: a chunk in Idle without
`<|tool_call` but with a misplaced `delta.finish_reason` is emitted as one
chunk whose delta is NOT the upstream delta (the finish reason moved to the
choice). -/
theorem idle_passthrough_changes_promoted_delta :
    (processEvent initTState 0 reasoningWithFinishChunk).2.length = 1 ∧
    (((processEvent initTState 0 reasoningWithFinishChunk).2.headD {}).choices.headD
        defaultChoice).delta ≠
      ({ reasoning := "hi".data, finishReason := some "stop".data } : Delta) := by
  rw [processEvent_evalF]
  exact ⟨by decide, by decide⟩

/-- Claim C9: in every emitted sequence of a fresh run whose upstream
chunks carry no pre-structured tool calls, each argument delta is preceded
by a header of the same index, tool-call emissions appear with
nondecreasing indices (so all deltas of one call precede the next call's
header), and no tool-call emission follows a section-trailing content
chunk. -/
theorem tool_call_emission_ordering (ms : Nat) (cs : List Chunk)
    (htc : ∀ c ∈ cs, ∀ ch ∈ c.choices, ch.delta.toolCalls = []) :
    HeaderBeforeArgs (feedAll initTState ms cs).2 ∧
    IdxMono (feedAll initTState ms cs).2 ∧
    NoCallAfterTrailing (feedAll initTState ms cs).2 := by
  have h := feedAll_runInv ms cs htc initTState [] runInv_init
  rw [List.nil_append] at h
  exact ⟨h.2.2.1, h.2.2.2.1, h.2.2.2.2.1⟩

/-- Witness for C9: on a one-call stream the second emitted chunk is an
argument delta of index 0, and a header of index 0 precedes it. -/
theorem tool_call_emission_ordering_witness :
    ∃ h ∈ [((feedAll initTState 0 [mkRC sectionOneCall]).2.headD {})],
      keyOf h = some (0, 0) :=
  (tool_call_emission_ordering 0 [mkRC sectionOneCall] (by decide)).1
    [((feedAll initTState 0 [mkRC sectionOneCall]).2.headD {})]
    (((feedAll initTState 0 [mkRC sectionOneCall]).2.drop 1).headD {})
    [] 0
    (by rw [feedAll_evalF]; decide)
    (by rw [feedAll_evalF]; decide)

/-- Witness for C10: the content chunk rewritten from a chunk carrying
both reasoning text and a finish reason itself carries that finish
reason. -/
theorem emissions_carry_promoted_finish_reason_witness :
    (makeContentChunk (promoteFinish reasoningTokenFinishChunk) "x".data).choices ≠ [] ∧
    ((makeContentChunk (promoteFinish reasoningTokenFinishChunk) "x".data).choices.headD
        defaultChoice).finishReason =
      ((promoteFinish reasoningTokenFinishChunk).choices.headD defaultChoice).finishReason :=
  emissions_carry_promoted_finish_reason initTState 0 reasoningTokenFinishChunk (by decide)
    (makeContentChunk (promoteFinish reasoningTokenFinishChunk) "x".data)
    (by rw [processEvent_evalF]; decide)
